import Mathlib

/-!
Shallow embedding of the on-device fake-news inference pipeline from
`Fake News Detection Extension/popup.js`: the Porter stemmer
(NLTK-extensions mode), the stopword-filtering tokenizer (`stemming`),
the TF-IDF vectorizer (`SimpleTFIDF.transform`), the logistic-regression
classifier (`LogisticRegression.predict`) and the model loader
(`loadModel`).

Modelling conventions:
* JavaScript strings are modelled as `List Char`; `str[i]` becomes
  `List.getD` (out-of-range reads yield the default character, matching
  the JS behaviour of `undefined` for every predicate the code applies
  to such reads), `str.slice(0, -n)` becomes `List.take (length - n)`.
* JavaScript numbers are modelled as real numbers (`ℝ`); IEEE-754
  rounding is idealized away, as the specification's "within
  floating-point tolerance" phrasing invites.
* `String.prototype.toLowerCase` is modelled by `Char.toLower`
  (they agree on the ASCII range, the only range the pipeline's
  alphabetic tokens can contain).
* JS `Map` objects are modelled by association lists / lookup
  functions with last-write-wins semantics where relevant.
* The single observable divergence of this model from a real JS engine
  is the `this.pool[w]` lookup in `stem`, which in JS also hits
  `Object.prototype` properties (for alphabetic lowercase input only
  the word "constructor"); the model performs a pure table lookup.
  No claim below depends on that word.
-/

/-- Character constant for a blank, written via its code point. -/
def spaceChar : Char := Char.ofNat 32

/-- Character constant for a straight apostrophe, written via its code point. -/
def aposChar : Char := Char.ofNat 39

/-- Test for `[a-zA-Z]`, the character class kept by the `stemming`
preprocessing regex `content.replace(/[^a-zA-Z]/g, ' ')`. -/
def isAlphaChar (c : Char) : Bool :=
  (decide (65 ≤ c.toNat) && decide (c.toNat ≤ 90)) ||
  (decide (97 ≤ c.toNat) && decide (c.toNat ≤ 122))

/-- Splitting accumulator: models `str.split(/\s+/).filter(w => w.length > 0)`.
After the `[^a-zA-Z] → ' '` replacement the only whitespace character that
can occur is the blank, so splitting on blanks is exact. -/
def splitAux : List Char → List Char → List (List Char)
  | [], acc => if acc = [] then [] else [acc.reverse]
  | c :: rest, acc =>
      if c = spaceChar then
        (if acc = [] then splitAux rest [] else acc.reverse :: splitAux rest [])
      else splitAux rest (c :: acc)

/-- Model of `split(/\s+/).filter(word => word.length > 0)` on a
blank-separated character list. -/
def splitWords (l : List Char) : List (List Char) :=
  splitAux l []

/-- Model of `Array.prototype.join(' ')`. -/
def joinSpace : List (List Char) → List Char
  | [] => []
  | [w] => w
  | w :: ws => w ++ spaceChar :: joinSpace ws

/- ### PorterStemmer -/

/-- The vowel set `this.vowels = new Set(["a","e","i","o","u"])`. -/
def vowels : List Char := ['a', 'e', 'i', 'o', 'u']

/-- Model of `PorterStemmer.isConsonant(word, i)`: vowels are not
consonants; `'y'` is a consonant at position 0 and otherwise a consonant
exactly when the previous character is not. -/
def isConsonant (w : List Char) : ℕ → Bool
  | 0 =>
      if vowels.contains (w.getD 0 spaceChar) then false else true
  | i + 1 =>
      let c := w.getD (i + 1) spaceChar
      if vowels.contains c then false
      else if c = 'y' then !(isConsonant w i) else true

/-- The consonant/vowel encoding built in `PorterStemmer.porterMeasure`. -/
def cvSeq (s : List Char) : List Char :=
  (List.range s.length).map (fun i => if isConsonant s i then 'c' else 'v')

/-- Model of `PorterStemmer.measure` (named `porterMeasure` here because `measure` is taken by Mathlib): the number of occurrences of the
pattern `"vc"` in the consonant/vowel encoding.  The JS code counts them
with a repeated `indexOf(_, pos + 1)` scan; since an occurrence of
`"vc"` can never overlap another one, that count equals the number of
adjacent positions holding `'v'` then `'c'`. -/
def porterMeasure (s : List Char) : ℕ :=
  let cv := cvSeq s
  (cv.zip cv.tail).countP (fun p => p.1 == 'v' && p.2 == 'c')

/-- Model of `PorterStemmer.hasPositiveMeasure`. -/
def hasPositiveMeasure (s : List Char) : Bool :=
  decide (0 < porterMeasure s)

/-- Model of `PorterStemmer.containsVowel`. -/
def containsVowel (s : List Char) : Bool :=
  (List.range s.length).any (fun i => !(isConsonant s i))

/-- Model of `PorterStemmer.endsDoubleConsonant`. -/
def endsDoubleConsonant (w : List Char) : Bool :=
  decide (2 ≤ w.length) &&
  (w.getD (w.length - 1) spaceChar == w.getD (w.length - 2) spaceChar) &&
  isConsonant w (w.length - 1)

/-- Model of `PorterStemmer.endsCVC`, including the NLTK extension for
words of length 2. -/
def endsCVC (w : List Char) : Bool :=
  let len := w.length
  (decide (3 ≤ len) && isConsonant w (len - 3) && !(isConsonant w (len - 2)) &&
    isConsonant w (len - 1) && !(['w', 'x', 'y'].contains (w.getD (len - 1) spaceChar)))
  ||
  (decide (len = 2) && !(isConsonant w 0) && isConsonant w 1)

/-- Model of `PorterStemmer.replaceSuffix`. `word.slice(0, -n)` is
`List.take (word.length - n)`. -/
def replaceSuffix (word suffix replacement : List Char) : List Char :=
  if suffix <:+ word then
    (if suffix = [] then word ++ replacement
     else word.take (word.length - suffix.length) ++ replacement)
  else word

/-- A rewrite rule `(suffix, replacement, optional condition)` as consumed
by `applyRuleList`. -/
def Rule : Type := List Char × List Char × Option (List Char → Bool)

/-- Applying an optional rule condition; a `null` condition always passes. -/
def condApp : Option (List Char → Bool) → List Char → Bool
  | none, _ => true
  | some f, s => f s

/-- The literal two-character marker `"*d"` used by the rule lists. -/
def starD : List Char := ['*', 'd']

/-- Model of `PorterStemmer.applyRuleList`: rules are tried in order;
the marker suffix `"*d"` combined with a double-consonant ending strips
the final two characters; otherwise a matching suffix is replaced when
the rule's condition (if any) holds on the stripped stem, and a matching
suffix with a failing condition returns the word unchanged without
trying later rules. -/
def applyRuleList (word : List Char) : List Rule → List Char
  | [] => word
  | (suffix, replacement, cond) :: rest =>
      if suffix = starD ∧ endsDoubleConsonant word then
        (let st := word.take (word.length - 2)
         if condApp cond st then st ++ replacement else word)
      else if suffix <:+ word then
        (let st := replaceSuffix word suffix []
         if condApp cond st then st ++ replacement else word)
      else applyRuleList word rest

/-- Model of `PorterStemmer.step1a`. -/
def step1a (word : List Char) : List Char :=
  if ("ies".toList <:+ word) ∧ word.length = 4 then
    replaceSuffix word "ies".toList "ie".toList
  else
    applyRuleList word [
      ("sses".toList, "ss".toList, none),
      ("ies".toList, "i".toList, none),
      ("ss".toList, "ss".toList, none),
      ("s".toList, [], none)]

/-- Model of `PorterStemmer.step1b`, including the NLTK `"ied"`
special case and the cleanup rule list applied after a successful
`"ed"`/`"ing"` strip. -/
def step1b (word : List Char) : List Char :=
  if "ied".toList <:+ word then
    (if word.length = 4 then replaceSuffix word "ied".toList "ie".toList
     else replaceSuffix word "ied".toList "i".toList)
  else if "eed".toList <:+ word then
    (let st := replaceSuffix word "eed".toList []
     if 0 < porterMeasure st then st ++ "ee".toList else word)
  else
    match
      (if ("ed".toList <:+ word) ∧ containsVowel (replaceSuffix word "ed".toList []) then
        some (replaceSuffix word "ed".toList [])
       else if ("ing".toList <:+ word) ∧ containsVowel (replaceSuffix word "ing".toList []) then
        some (replaceSuffix word "ing".toList [])
       else none) with
    | none => word
    | some ist =>
        applyRuleList ist [
          ("at".toList, "ate".toList, none),
          ("bl".toList, "ble".toList, none),
          ("iz".toList, "ize".toList, none),
          (starD, [ist.getD (ist.length - 1) spaceChar],
            some (fun _ => !(['l', 's', 'z'].contains (ist.getD (ist.length - 1) spaceChar)))),
          ([], "e".toList,
            some (fun st => decide (porterMeasure st = 1) && endsCVC st))]

/-- Model of `PorterStemmer.step1c` with the NLTK condition. -/
def step1c (word : List Char) : List Char :=
  applyRuleList word [
    ("y".toList, "i".toList,
      some (fun st => decide (1 < st.length) && isConsonant st (st.length - 1)))]

/-- The step-2 rule table.  The `"logi"` rule's condition inspects the
captured `word` (the step-2 argument) with its last three characters
removed, ignoring the stem it is handed — exactly as the JS closure
`(stem) => this.hasPositiveMeasure(word.slice(0, -3))` does. -/
def step2Rules (word : List Char) : List Rule :=
  [ ("ational".toList, "ate".toList, some hasPositiveMeasure),
    ("tional".toList, "tion".toList, some hasPositiveMeasure),
    ("enci".toList, "ence".toList, some hasPositiveMeasure),
    ("anci".toList, "ance".toList, some hasPositiveMeasure),
    ("izer".toList, "ize".toList, some hasPositiveMeasure),
    ("bli".toList, "ble".toList, some hasPositiveMeasure),
    ("alli".toList, "al".toList, some hasPositiveMeasure),
    ("entli".toList, "ent".toList, some hasPositiveMeasure),
    ("eli".toList, "e".toList, some hasPositiveMeasure),
    ("ousli".toList, "ous".toList, some hasPositiveMeasure),
    ("ization".toList, "ize".toList, some hasPositiveMeasure),
    ("ation".toList, "ate".toList, some hasPositiveMeasure),
    ("ator".toList, "ate".toList, some hasPositiveMeasure),
    ("alism".toList, "al".toList, some hasPositiveMeasure),
    ("iveness".toList, "ive".toList, some hasPositiveMeasure),
    ("fulness".toList, "ful".toList, some hasPositiveMeasure),
    ("ousness".toList, "ous".toList, some hasPositiveMeasure),
    ("aliti".toList, "al".toList, some hasPositiveMeasure),
    ("iviti".toList, "ive".toList, some hasPositiveMeasure),
    ("biliti".toList, "ble".toList, some hasPositiveMeasure),
    ("fulli".toList, "ful".toList, some hasPositiveMeasure),
    ("logi".toList, "log".toList,
      some (fun _ => hasPositiveMeasure (word.take (word.length - 3)))) ]

/-- Model of `PorterStemmer.step2`.  The JS method first handles the
NLTK recursive `"alli"` check (two nested `if`s both of which fall
through to the rule table when they fail, hence the single conjunctive
guard here) and then applies the rule table. -/
def step2 (word : List Char) : List Char :=
  if h : ("alli".toList <:+ word) ∧
      hasPositiveMeasure (replaceSuffix word "alli".toList []) then
    step2 (replaceSuffix word "alli".toList "al".toList)
  else
    applyRuleList word (step2Rules word)
termination_by word.length
decreasing_by
  have hsuf : "alli".toList <:+ word := h.1
  have hle : ("alli".toList).length ≤ word.length := hsuf.length_le
  simp only [replaceSuffix, if_pos hsuf]
  have hne : ("alli".toList) ≠ ([] : List Char) := by decide
  rw [if_neg hne]
  simp only [List.length_append, List.length_take]
  simp only [List.length] at hle ⊢
  omega

/-- Model of `PorterStemmer.step3`. -/
def step3 (word : List Char) : List Char :=
  applyRuleList word [
    ("icate".toList, "ic".toList, some hasPositiveMeasure),
    ("ative".toList, [], some hasPositiveMeasure),
    ("alize".toList, "al".toList, some hasPositiveMeasure),
    ("iciti".toList, "ic".toList, some hasPositiveMeasure),
    ("ical".toList, "ic".toList, some hasPositiveMeasure),
    ("ful".toList, [], some hasPositiveMeasure),
    ("ness".toList, [], some hasPositiveMeasure)]

/-- Model of `PorterStemmer.step4`. -/
def step4 (word : List Char) : List Char :=
  applyRuleList word [
    ("al".toList, [], some (fun st => decide (1 < porterMeasure st))),
    ("ance".toList, [], some (fun st => decide (1 < porterMeasure st))),
    ("ence".toList, [], some (fun st => decide (1 < porterMeasure st))),
    ("er".toList, [], some (fun st => decide (1 < porterMeasure st))),
    ("ic".toList, [], some (fun st => decide (1 < porterMeasure st))),
    ("able".toList, [], some (fun st => decide (1 < porterMeasure st))),
    ("ible".toList, [], some (fun st => decide (1 < porterMeasure st))),
    ("ant".toList, [], some (fun st => decide (1 < porterMeasure st))),
    ("ement".toList, [], some (fun st => decide (1 < porterMeasure st))),
    ("ment".toList, [], some (fun st => decide (1 < porterMeasure st))),
    ("ent".toList, [], some (fun st => decide (1 < porterMeasure st))),
    ("ion".toList, [],
      some (fun st => decide (1 < porterMeasure st) &&
        (['s', 't'].contains (st.getD (st.length - 1) spaceChar)))),
    ("ou".toList, [], some (fun st => decide (1 < porterMeasure st))),
    ("ism".toList, [], some (fun st => decide (1 < porterMeasure st))),
    ("ate".toList, [], some (fun st => decide (1 < porterMeasure st))),
    ("iti".toList, [], some (fun st => decide (1 < porterMeasure st))),
    ("ous".toList, [], some (fun st => decide (1 < porterMeasure st))),
    ("ive".toList, [], some (fun st => decide (1 < porterMeasure st))),
    ("ize".toList, [], some (fun st => decide (1 < porterMeasure st)))]

/-- Model of `PorterStemmer.step5a`. -/
def step5a (word : List Char) : List Char :=
  if "e".toList <:+ word then
    (let st := replaceSuffix word "e".toList []
     let m := porterMeasure st
     if 1 < m then st
     else if m = 1 ∧ ¬(endsCVC st = true) then st
     else word)
  else word

/-- Model of `PorterStemmer.step5b`; the condition inspects the captured
`word` with its final character removed. -/
def step5b (word : List Char) : List Char :=
  applyRuleList word [
    ("ll".toList, "l".toList,
      some (fun _ => decide (1 < porterMeasure (word.take (word.length - 1)))))]

/-- The NLTK irregular-forms pool `irregularForms` exactly as written in
the constructor: canonical stem paired with its list of surface forms. -/
def irregularForms : List (List Char × List (List Char)) :=
  [ ("sky".toList, ["sky".toList, "skies".toList]),
    ("die".toList, ["dying".toList]),
    ("lie".toList, ["lying".toList]),
    ("tie".toList, ["tying".toList]),
    ("news".toList, ["news".toList]),
    ("inning".toList, ["innings".toList, "inning".toList]),
    ("outing".toList, ["outings".toList, "outing".toList]),
    ("canning".toList, ["cannings".toList, "canning".toList]),
    ("howe".toList, ["howe".toList]),
    ("proceed".toList, ["proceed".toList]),
    ("exceed".toList, ["exceed".toList]),
    ("succeed".toList, ["succeed".toList]) ]

/-- The inverted table `this.pool` (form ↦ stem) built by the
constructor loop.  JS object assignment is last-write-wins, but all the
surface forms above are distinct, so a first-match association list is
an exact model. -/
def pool : List (List Char × List Char) :=
  irregularForms.foldl
    (fun acc p => acc ++ p.2.map (fun f => (f, p.1))) []

/-- First-match lookup in an association list of words, modelling the JS
property read `this.pool[w]` (own properties). -/
def poolLookup (w : List Char) : List (List Char × List Char) → Option (List Char)
  | [] => none
  | (k, v) :: rest => if w = k then some v else poolLookup w rest

/-- Model of `PorterStemmer.stem`: lowercase, consult the irregular-form
pool, keep strings of length ≤ 2 unchanged, otherwise run the eight rule
steps in order. -/
def stem (word : List Char) : List Char :=
  let w := word.map Char.toLower
  match poolLookup w pool with
  | some s => s
  | none =>
      if w.length ≤ 2 then w
      else step5b (step5a (step4 (step3 (step2 (step1c (step1b (step1a w)))))))

/- ### Tokenizer / normalizer -/

/-- Helper for writing a stopword contraction such as `"don't"`: the two
alphabetic halves joined by an apostrophe. -/
def ctr (a b : String) : List Char :=
  a.toList ++ aposChar :: b.toList

/-- The stopword set `STOPWORDS`, in source order.  The JS `Set` is used
only for membership tests, so a list with `∈` is an exact model. -/
def STOPWORDS : List (List Char) :=
  (["i", "me", "my", "myself", "we", "our", "ours", "ourselves", "you"].map String.toList) ++
  [ctr "you" "re", ctr "you" "ve", ctr "you" "ll", ctr "you" "d"] ++
  (["your", "yours", "yourself", "yourselves", "he",
    "him", "his", "himself", "she"].map String.toList) ++
  [ctr "she" "s"] ++
  (["her", "hers", "herself", "it"].map String.toList) ++
  [ctr "it" "s"] ++
  (["its", "itself", "they", "them", "their", "theirs", "themselves", "what", "which",
    "who", "whom", "this", "that"].map String.toList) ++
  [ctr "that" "ll"] ++
  (["these", "those", "am", "is", "are",
    "was", "were", "be", "been", "being", "have", "has", "had", "having", "do",
    "does", "did", "doing", "a", "an", "the", "and", "but", "if", "or", "because",
    "as", "until", "while", "of", "at", "by", "for", "with", "about", "against",
    "between", "into", "through", "during", "before", "after", "above", "below",
    "to", "from", "up", "down", "in", "out", "on", "off", "over", "under", "again",
    "further", "then", "once", "here", "there", "when", "where", "why", "how", "all",
    "both", "each", "few", "more", "most", "other", "some", "such", "no", "nor",
    "not", "only", "own", "same", "so", "than", "too", "very", "s", "t", "can",
    "will", "just", "don"].map String.toList) ++
  [ctr "don" "t"] ++
  (["should"].map String.toList) ++
  [ctr "should" "ve"] ++
  (["now", "d", "ll", "m",
    "o", "re", "ve", "y", "ain", "aren"].map String.toList) ++
  [ctr "aren" "t"] ++
  (["couldn"].map String.toList) ++ [ctr "couldn" "t"] ++
  (["didn"].map String.toList) ++ [ctr "didn" "t"] ++
  (["doesn"].map String.toList) ++ [ctr "doesn" "t"] ++
  (["hadn"].map String.toList) ++ [ctr "hadn" "t"] ++
  (["hasn"].map String.toList) ++ [ctr "hasn" "t"] ++
  (["haven"].map String.toList) ++ [ctr "haven" "t"] ++
  (["isn"].map String.toList) ++ [ctr "isn" "t"] ++
  (["ma", "mightn"].map String.toList) ++ [ctr "mightn" "t"] ++
  (["mustn"].map String.toList) ++ [ctr "mustn" "t"] ++
  (["needn"].map String.toList) ++ [ctr "needn" "t"] ++
  (["shan"].map String.toList) ++ [ctr "shan" "t"] ++
  (["shouldn"].map String.toList) ++ [ctr "shouldn" "t"] ++
  (["wasn"].map String.toList) ++ [ctr "wasn" "t"] ++
  (["weren"].map String.toList) ++ [ctr "weren" "t"] ++
  (["won"].map String.toList) ++ [ctr "won" "t"] ++
  (["wouldn"].map String.toList) ++ [ctr "wouldn" "t"]

/-- The word list built inside `stemming(content)`: replace every
character outside `[a-zA-Z]` by a blank, lowercase, split on whitespace
runs discarding empty pieces, drop stopwords, stem each survivor.  This
is the `words` array the function joins with `' '` just before
returning; it is the specification's `normalize`. -/
def stemmingWords (content : List Char) : List (List Char) :=
  let processed := content.map (fun c => if isAlphaChar c then c else spaceChar)
  let lowered := processed.map Char.toLower
  let ws := splitWords lowered
  (ws.filter (fun w => !(STOPWORDS.contains w))).map stem

/-- Model of the function `stemming(content)`: the stemmed word list
joined back into a blank-separated string. -/
def stemming (content : List Char) : List Char :=
  joinSpace (stemmingWords content)

/- ### SimpleTFIDF -/

/-- Term counting: `termCounts.set(token, (termCounts.get(token) || 0) + 1)`
over a JS `Map`, which preserves first-insertion order.  `bump` is one
loop iteration. -/
def bump (m : List (List Char × ℕ)) (w : List Char) : List (List Char × ℕ) :=
  if (m.map Prod.fst).contains w then
    m.map (fun p => if p.1 = w then (p.1, p.2 + 1) else p)
  else m ++ [(w, 1)]

/-- The `termCounts` map built from the token list, as an ordered
association list with distinct keys. -/
def termCounts (tokens : List (List Char)) : List (List Char × ℕ) :=
  tokens.foldl bump []

/-- The `vocabMap` built by
`vocabulary.forEach((word, idx) => vocabMap.set(word, idx))`.
`vocabMapFrom start v w` is the index assigned to `w` when the entries of
`v` are inserted at positions `start, start+1, …`; a later insertion of
the same word shadows an earlier one, so the tail is consulted first. -/
def vocabMapFrom (start : ℕ) : List (List Char) → List Char → Option ℕ
  | [], _ => none
  | v :: rest, w =>
      match vocabMapFrom (start + 1) rest w with
      | some i => some i
      | none => if w = v then some start else none

/-- Lookup `vocabMap.get(word)` for the whole vocabulary. -/
def vocabMap (vocab : List (List Char)) (w : List Char) : Option ℕ :=
  vocabMapFrom 0 vocab w

/-- The `termCounts.forEach` loop of `SimpleTFIDF.transform`: for each
counted word present in the vocabulary it writes `count * idf[idx]` into
the feature array and accumulates the sum of squares. -/
def tfidfLoop (idf : List ℝ) (vmap : List Char → Option ℕ) :
    List (List Char × ℕ) → List ℝ → ℝ → List ℝ × ℝ
  | [], features, sumSquares => (features, sumSquares)
  | (w, count) :: rest, features, sumSquares =>
      match vmap w with
      | some idx =>
          let val := (count : ℝ) * idf.getD idx 0
          tfidfLoop idf vmap rest (features.set idx val) (sumSquares + val * val)
      | none => tfidfLoop idf vmap rest features sumSquares

/-- Model of `SimpleTFIDF.transform(text)`: preprocess, count terms,
fill the raw count·IDF vector, and L2-normalize it when its sum of
squares is strictly positive.  The JS code re-splits the blank-joined
string produced by `stemming`; `splitWords (stemming text)` is exactly
that. -/
noncomputable def transform (vocab : List (List Char)) (idf : List ℝ)
    (text : List Char) : List ℝ :=
  let tokens := splitWords (stemming text)
  let counts := termCounts tokens
  let init : List ℝ := List.replicate vocab.length 0
  let fs := tfidfLoop idf (vocabMap vocab) counts init 0
  if 0 < fs.2 then fs.1.map (fun x => x / Real.sqrt fs.2) else fs.1

/- ### LogisticRegression -/

/-- Result record of `LogisticRegression.predict`. -/
structure PredictionResult where
  prediction : ℕ
  confidence : ℝ
  fakeProbability : ℝ
  realProbability : ℝ

/-- The score loop of `predict`: `score = intercept`, then
`score += features[i] * coef[i]` for `i < features.length`.  The default
read `coef.getD i 0` is exact only while `i < coef.length`; a JS
out-of-range read would yield `undefined` and poison the score with
`NaN`, which the real-number model cannot express, so every theorem
below keeps the coefficient reads in range (`features.length ≤
coef.length`). -/
def scoreOf (coef : List ℝ) (intercept : ℝ) (features : List ℝ) : ℝ :=
  (List.range features.length).foldl
    (fun s i => s + features.getD i 0 * coef.getD i 0) intercept

/-- Model of `LogisticRegression.predict(features)`. -/
noncomputable def predict (coef : List ℝ) (intercept : ℝ)
    (features : List ℝ) : PredictionResult :=
  let score := scoreOf coef intercept features
  let probability := 1 / (1 + Real.exp (-score))
  { prediction := if 0.5 < probability then 1 else 0
    confidence := if 0.5 < probability then probability else 1 - probability
    fakeProbability := probability
    realProbability := 1 - probability }

/- ### loadModel -/

/-- The parsed `model_params.json` record. -/
structure ModelData where
  vocabulary : List (List Char)
  idf_values : List ℝ
  coefficients : List ℝ
  intercept : ℝ

/-- State held by a constructed `SimpleTFIDF` (the derived `vocabMap` is
a function of `vocabulary`, so it is not stored separately). -/
structure SimpleTFIDFState where
  vocabulary : List (List Char)
  idfValues : List ℝ

/-- State held by a constructed `LogisticRegression`. -/
structure LogisticRegressionState where
  coef : List ℝ
  intercept : ℝ

/-- The record returned by a successful `loadModel()`. -/
structure ModelComponents where
  vectorizer : SimpleTFIDFState
  model : LogisticRegressionState

/-- Model of `loadModel()`.  The `fetch`/`response.json()` part is
external I/O; its outcome is the argument (`none` models a rejected
fetch or parse failure, which the `catch` turns into `null`).  Given
parsed model data the function constructs the vectorizer and the
classifier directly — it performs no validation of any kind. -/
def loadModel : Option ModelData → Option ModelComponents
  | none => none
  | some md =>
      some { vectorizer := { vocabulary := md.vocabulary, idfValues := md.idf_values }
             model := { coef := md.coefficients, intercept := md.intercept } }

/- ### Specification-side notions -/

/-- Sum of squares of a real vector (spec-side helper). -/
def sumSq (v : List ℝ) : ℝ :=
  (v.map (fun x => x * x)).sum

/-- Euclidean norm of a real vector (spec-side notion used by claim C5). -/
noncomputable def euclideanNorm (v : List ℝ) : ℝ :=
  Real.sqrt (sumSq v)

/-- Sigmoid, the spec's `1/(1+e^-x)` (spec-side notion used by C3). -/
noncomputable def sigmoid (x : ℝ) : ℝ :=
  1 / (1 + Real.exp (-x))

/- ### Evaluation forms

`step2` is defined by well-founded recursion, which the kernel cannot
unfold definitionally; for evaluating the stemmer on concrete words the
following non-recursive forms are provided, together with proofs (below)
that they agree with the faithful definitions.  The inner recursive call
of `step2` rewrites a trailing `"alli"` to `"al"`, and a word ending in
`'l'` can never end in `"alli"` again, so one unfolding is exact. -/

/-- Non-recursive unfolding of `step2` (proved equal in `step2_eq_nr`). -/
def step2NR (word : List Char) : List Char :=
  if ("alli".toList <:+ word) ∧
      hasPositiveMeasure (replaceSuffix word "alli".toList []) then
    applyRuleList (replaceSuffix word "alli".toList "al".toList)
      (step2Rules (replaceSuffix word "alli".toList "al".toList))
  else applyRuleList word (step2Rules word)

/-- Fully computable form of `stem` (proved equal in `stem_eq_nr`). -/
def stemNR (word : List Char) : List Char :=
  let w := word.map Char.toLower
  match poolLookup w pool with
  | some s => s
  | none =>
      if w.length ≤ 2 then w
      else step5b (step5a (step4 (step3 (step2NR (step1c (step1b (step1a w)))))))

/-- Fully computable form of `stemmingWords` (proved equal in
`stemmingWords_eq_nr`). -/
def stemmingWordsNR (content : List Char) : List (List Char) :=
  let processed := content.map (fun c => if isAlphaChar c then c else spaceChar)
  let lowered := processed.map Char.toLower
  let ws := splitWords lowered
  (ws.filter (fun w => !(STOPWORDS.contains w))).map stemNR

/-- Contribution of one `termCounts` entry to the `sumSquares`
accumulator of `tfidfLoop` (proof-side helper). -/
def payload (idf : List ℝ) (vmap : List Char → Option ℕ)
    (p : List Char × ℕ) : ℝ :=
  match vmap p.1 with
  | some idx => ((p.2 : ℝ) * idf.getD idx 0) * ((p.2 : ℝ) * idf.getD idx 0)
  | none => 0

/- ### Theorems -/

/-- A word that ends in `"al"` cannot end in `"alli"`. -/
theorem alli_not_suffix_al (x : List Char) :
    ¬ ("alli".toList <:+ x ++ "al".toList) := by
  intro h
  obtain ⟨p, hp⟩ := h
  have h1 : (x ++ "al".toList).getLast? = some 'l' :=
    List.getLast?_append_of_ne_nil x (by decide)
  rw [← hp, List.getLast?_append_of_ne_nil p (by decide)] at h1
  simp at h1

/-- When `suffix` is a nonempty suffix of `word`, `replaceSuffix` takes
the prefix and appends the replacement. -/
theorem replaceSuffix_of_suffix {word suffix : List Char} (r : List Char)
    (h : suffix <:+ word) (hne : suffix ≠ []) :
    replaceSuffix word suffix r =
      word.take (word.length - suffix.length) ++ r := by
  simp only [replaceSuffix, if_pos h, if_neg hne]

/-- The single unfolding of `step2`: its inner recursive call never
satisfies the `"alli"` guard again. -/
theorem step2_eq_nr (word : List Char) : step2 word = step2NR word := by
  rw [step2]
  unfold step2NR
  split_ifs with h
  · rw [step2]
    rw [dif_neg]
    intro hc
    have h1 := hc.1
    rw [replaceSuffix_of_suffix _ h.1 (by decide)] at h1
    exact alli_not_suffix_al _ h1
  · rfl

/-- Unfolding `stem` through `step2_eq_nr`. -/
theorem stem_eq_nr (word : List Char) : stem word = stemNR word := by
  unfold stem stemNR
  simp only [step2_eq_nr]

/-- Unfolding `stemmingWords` through `stem_eq_nr`. -/
theorem stemmingWords_eq_nr (content : List Char) :
    stemmingWords content = stemmingWordsNR content := by
  unfold stemmingWords stemmingWordsNR
  exact List.map_congr_left (fun w _ => stem_eq_nr w)

/-- Values of `Char.toNat` under `Char.toLower`: basic-latin capitals
are shifted by 32, everything else is untouched. -/
theorem toNat_toLower (c : Char) :
    c.toLower.toNat =
      if 65 ≤ c.toNat ∧ c.toNat ≤ 90 then c.toNat + 32 else c.toNat := by
  obtain ⟨n, hn⟩ : ∃ n, c.toNat = n := ⟨_, rfl⟩
  simp only [Char.toLower, ge_iff_le, hn]
  split_ifs with h
  · obtain ⟨h1, h2⟩ := h
    interval_cases n <;> decide
  · exact hn

/-- Characters with equal code points are equal. -/
theorem char_toNat_inj {a b : Char} (h : a.toNat = b.toNat) : a = b := by
  rw [← Char.ofNat_toNat a, ← Char.ofNat_toNat b, h]

/-- `Char.toLower` is idempotent. -/
theorem toLower_toLower (c : Char) : c.toLower.toLower = c.toLower := by
  have h1 := toNat_toLower c
  have h2 := toNat_toLower c.toLower
  have : c.toLower.toLower.toNat = c.toLower.toNat := by
    rw [h2, h1]
    split_ifs <;> omega
  exact char_toNat_inj this

/-- Lowercasing a list of characters twice equals lowercasing it once. -/
theorem map_toLower_idem (w : List Char) :
    (w.map Char.toLower).map Char.toLower = w.map Char.toLower := by
  rw [List.map_map]
  exact List.map_congr_left (fun c _ => toLower_toLower c)

/-- A basic-latin lowercase letter is fixed by `Char.toLower`. -/
theorem toLower_of_lower {c : Char} (h : 97 ≤ c.toNat) : c.toLower = c := by
  have h1 := toNat_toLower c
  rw [if_neg (by omega)] at h1
  exact char_toNat_inj h1

/-- `Char.toLower` never produces a blank from a non-blank. -/
theorem toLower_ne_space {c : Char} (h : c ≠ spaceChar) :
    c.toLower ≠ spaceChar := by
  intro hc
  apply h
  have h1 := toNat_toLower c
  rw [hc] at h1
  have hsp : spaceChar.toNat = 32 := by decide
  rw [hsp] at h1
  split_ifs at h1 with h2
  · omega
  · exact char_toNat_inj (by omega)

/-- First-match association lookup finds a member. -/
theorem poolLookup_mem (w v : List Char) :
    ∀ l, poolLookup w l = some v → (w, v) ∈ l := by
  intro l
  induction l with
  | nil => intro h; cases h
  | cons p rest ih =>
      intro h
      obtain ⟨k, s⟩ := p
      by_cases hw : w = k
      · subst hw
        simp only [poolLookup, if_pos rfl] at h
        cases h
        exact List.mem_cons_self _ _
      · simp only [poolLookup, if_neg hw] at h
        exact List.mem_cons_of_mem _ (ih h)

/-- The inverted irregular-form table, fully evaluated. -/
theorem pool_eq :
    pool = [
      ("sky".toList, "sky".toList),
      ("skies".toList, "sky".toList),
      ("dying".toList, "die".toList),
      ("lying".toList, "lie".toList),
      ("tying".toList, "tie".toList),
      ("news".toList, "news".toList),
      ("innings".toList, "inning".toList),
      ("inning".toList, "inning".toList),
      ("outings".toList, "outing".toList),
      ("outing".toList, "outing".toList),
      ("cannings".toList, "canning".toList),
      ("canning".toList, "canning".toList),
      ("howe".toList, "howe".toList),
      ("proceed".toList, "proceed".toList),
      ("exceed".toList, "exceed".toList),
      ("succeed".toList, "succeed".toList) ] := by
  rfl

/-- Strings of length at most two never hit the irregular-form pool. -/
theorem poolLookup_none_of_short {w : List Char} (h : w.length ≤ 2) :
    poolLookup w pool = none := by
  cases hp : poolLookup w pool with
  | none => rfl
  | some v =>
      exfalso
      have hmem := poolLookup_mem _ _ _ hp
      rw [pool_eq] at hmem
      simp only [List.mem_cons, List.not_mem_nil, or_false] at hmem
      rcases hmem with h1|h1|h1|h1|h1|h1|h1|h1|h1|h1|h1|h1|h1|h1|h1|h1 <;>
        (injection h1 with hw hv; subst hw; exact absurd h (by decide))

/-- C6: every lowercase alphabetic word of length at most 2 is returned
unchanged by `stem`: it misses the irregular-form pool (whose keys all
have length ≥ 3) and the length guard skips all suffix-rewrite steps. -/
theorem c6_short_words_unstemmed (w : List Char)
    (halpha : ∀ c ∈ w, 97 ≤ c.toNat ∧ c.toNat ≤ 122) (hlen : w.length ≤ 2) :
    stem w = w := by
  have hmap : w.map Char.toLower = w := by
    have h1 : w.map Char.toLower = w.map id :=
      List.map_congr_left (fun c hc => toLower_of_lower (halpha c hc).1)
    rw [h1, List.map_id]
  have hpool : poolLookup w pool = none := poolLookup_none_of_short hlen
  simp only [stem, hmap, hpool, if_pos hlen]

/-- Witness for C6 at the concrete word `"ab"`. -/
theorem c6_short_words_unstemmed_witness :
    (∀ c ∈ ("ab".toList), 97 ≤ c.toNat ∧ c.toNat ≤ 122) ∧
      ("ab".toList).length ≤ 2 ∧ stem ("ab".toList) = "ab".toList := by
  refine ⟨by decide, by decide, c6_short_words_unstemmed _ (by decide) (by decide)⟩

/-- C7: every key of the inverted irregular-form table is mapped by
`stem` straight to its pooled stem, bypassing all rule steps. -/
theorem c7_irregular_forms (w s : List Char)
    (h : poolLookup w pool = some s) : stem w = s := by
  have hmem := poolLookup_mem _ _ _ h
  rw [pool_eq] at hmem
  simp only [List.mem_cons, List.not_mem_nil, or_false] at hmem
  rcases hmem with h1|h1|h1|h1|h1|h1|h1|h1|h1|h1|h1|h1|h1|h1|h1|h1 <;>
    (injection h1 with hw hv; subst hw; subst hv; decide)

/-- Witness for C7: the claim's own examples, `stem "dying" = "die"` and
`stem "news" = "news"`. -/
theorem c7_irregular_forms_witness :
    poolLookup ("dying".toList) pool = some ("die".toList) ∧
      stem ("dying".toList) = "die".toList ∧
      poolLookup ("news".toList) pool = some ("news".toList) ∧
      stem ("news".toList) = "news".toList :=
  ⟨by decide, c7_irregular_forms _ _ (by decide),
   by decide, c7_irregular_forms _ _ (by decide)⟩

/-- C9: the two recursions inside the stemmer are well-founded: the
`"alli"` rewrite of `step2` strictly shortens the word, and the `'y'`
case of `isConsonant` consults the strictly smaller index (shown by its
one-step unfolding). -/
theorem c9_recursions_well_founded :
    (∀ w : List Char, "alli".toList <:+ w →
      (replaceSuffix w "alli".toList "al".toList).length < w.length) ∧
    (∀ (w : List Char) (i : ℕ), w.getD (i + 1) spaceChar = 'y' →
      isConsonant w (i + 1) = !(isConsonant w i)) := by
  constructor
  · intro w hsuf
    rw [replaceSuffix_of_suffix _ hsuf (by decide)]
    have hle := hsuf.length_le
    have h4 : ("alli".toList).length = 4 := by decide
    have h2 : ("al".toList).length = 2 := by decide
    rw [h4] at hle ⊢
    simp only [List.length_append, List.length_take, h2]
    omega
  · intro w i hy
    simp only [isConsonant]
    rw [hy]
    simp [vowels]

/-- Witness for C9 at the concrete word `"xalli"` and the word `"ay"`. -/
theorem c9_recursions_well_founded_witness :
    (replaceSuffix ("xalli".toList) ("alli".toList) ("al".toList)).length <
        ("xalli".toList).length ∧
      isConsonant ("ay".toList) 1 = !(isConsonant ("ay".toList) 0) :=
  ⟨c9_recursions_well_founded.1 _ (by decide),
   c9_recursions_well_founded.2 _ 0 (by decide)⟩

/-- C10: `stem` lowercases its argument before the pool lookup and all
rule steps, so it cannot distinguish a string from its lowercased form. -/
theorem c10_stem_case_insensitive (w : List Char) :
    stem w = stem (w.map Char.toLower) := by
  simp only [stem, map_toLower_idem]

/-- A list with `"logi"` as a suffix has no other suffix `s` unless `s`
and `"logi"` are comparable as suffixes. -/
theorem not_suffix_of_ends_logi {s w : List Char}
    (hlogi : "logi".toList <:+ w)
    (h1 : ¬ s <:+ "logi".toList) (h2 : ¬ "logi".toList <:+ s) :
    ¬ s <:+ w := by
  intro hs
  rcases List.suffix_or_suffix_of_suffix hs hlogi with h | h
  · exact h1 h
  · exact h2 h

/-- A rule whose suffix neither is the `"*d"` marker case nor matches
the word is skipped. -/
theorem applyRuleList_skip (word : List Char) (suffix repl : List Char)
    (cond : Option (List Char → Bool)) (rest : List Rule)
    (hsd : ¬ (suffix = starD ∧ endsDoubleConsonant word))
    (hsuf : ¬ suffix <:+ word) :
    applyRuleList word ((suffix, repl, cond) :: rest) =
      applyRuleList word rest := by
  simp only [applyRuleList, if_neg hsd, if_neg hsuf]

/-- C8: for a word ending in `"logi"`, the step-2 `"logi" → "log"` rule
fires exactly when the measure of the original word with its last three
characters removed (keeping the `'l'`) is positive. -/
theorem c8_logi_condition_on_original_word (w : List Char)
    (h : "logi".toList <:+ w) :
    step2 w =
      if 0 < porterMeasure (w.take (w.length - 3)) then
        w.take (w.length - 4) ++ "log".toList
      else w := by
  rw [step2_eq_nr]
  unfold step2NR
  rw [if_neg (fun hc => not_suffix_of_ends_logi h (by decide) (by decide) hc.1)]
  unfold step2Rules
  repeat
    rw [applyRuleList_skip _ _ _ _ _ (fun hc => absurd hc.1 (by decide))
      (not_suffix_of_ends_logi h (by decide) (by decide))]
  simp only [applyRuleList]
  rw [if_neg (fun hc => absurd hc.1 (by decide)), if_pos h]
  simp only [condApp, hasPositiveMeasure]
  rw [replaceSuffix_of_suffix _ h (by decide)]
  have h4 : ("logi".toList).length = 4 := by decide
  rw [h4]
  simp only [decide_eq_true_eq, List.append_nil]

/-- Witness for C8 at the concrete word `"biologi"` (the rule fires). -/
theorem c8_logi_condition_on_original_word_witness :
    ("logi".toList <:+ "biologi".toList) ∧
      step2 ("biologi".toList) =
        (if 0 < porterMeasure (("biologi".toList).take
            (("biologi".toList).length - 3)) then
          ("biologi".toList).take (("biologi".toList).length - 4) ++ "log".toList
        else "biologi".toList) :=
  ⟨by decide, c8_logi_condition_on_original_word _ (by decide)⟩

/-- The score accumulation loop equals the intercept plus the finite sum
of products. -/
theorem foldl_add_range (f : ℕ → ℝ) (b : ℝ) (n : ℕ) :
    (List.range n).foldl (fun s i => s + f i) b =
      b + ∑ i ∈ Finset.range n, f i := by
  induction n with
  | zero => simp
  | succ n ih =>
      rw [List.range_succ, List.foldl_append, ih, Finset.sum_range_succ]
      simp [add_assoc]

/-- Closed form of `scoreOf`. -/
theorem scoreOf_eq_sum (coef : List ℝ) (b : ℝ) (features : List ℝ) :
    scoreOf coef b features =
      b + ∑ i ∈ Finset.range features.length,
        features.getD i 0 * coef.getD i 0 := by
  unfold scoreOf
  exact foldl_add_range _ b _

/-- Projection of `predict`: the reported probability. -/
theorem predict_fakeProbability (coef : List ℝ) (b : ℝ) (features : List ℝ) :
    (predict coef b features).fakeProbability =
      1 / (1 + Real.exp (-(scoreOf coef b features))) := rfl

/-- Projection of `predict`: the binary label. -/
theorem predict_prediction (coef : List ℝ) (b : ℝ) (features : List ℝ) :
    (predict coef b features).prediction =
      if 0.5 < (predict coef b features).fakeProbability then 1 else 0 := rfl

/-- Projection of `predict`: the reported confidence. -/
theorem predict_confidence (coef : List ℝ) (b : ℝ) (features : List ℝ) :
    (predict coef b features).confidence =
      if 0.5 < (predict coef b features).fakeProbability then
        (predict coef b features).fakeProbability
      else 1 - (predict coef b features).fakeProbability := rfl

/-- C4: `predict` computes `probability = 1/(1+exp(-(intercept + Σ
features[i]·coefficients[i])))`, labels `1` exactly when the probability
exceeds `0.5` (and `0` otherwise), and reports confidence
`max(probability, 1 - probability)`. -/
theorem c4_predict_formula (features coef : List ℝ) (b : ℝ)
    (h : features.length = coef.length) :
    (predict coef b features).fakeProbability =
        1 / (1 + Real.exp (-(b + ∑ i ∈ Finset.range features.length,
          features.getD i 0 * coef.getD i 0))) ∧
      ((predict coef b features).prediction = 1 ↔
        0.5 < (predict coef b features).fakeProbability) ∧
      ((predict coef b features).prediction = 0 ↔
        ¬ 0.5 < (predict coef b features).fakeProbability) ∧
      (predict coef b features).confidence =
        max (predict coef b features).fakeProbability
          (1 - (predict coef b features).fakeProbability) := by
  refine ⟨?_, ?_, ?_, ?_⟩
  · rw [predict_fakeProbability, scoreOf_eq_sum]
  · rw [predict_prediction]
    split_ifs with hp <;> simp [hp]
  · rw [predict_prediction]
    split_ifs with hp <;> simp [hp]
  · rw [predict_confidence]
    split_ifs with hp
    · exact (max_eq_left (by linarith)).symm
    · exact (max_eq_right (by linarith [le_of_not_lt hp])).symm

/-- Witness for C4 at concrete features `[1, 2]`, coefficients `[3, 4]`,
intercept `0`. -/
theorem c4_predict_formula_witness :
    (([(1 : ℝ), 2]).length = ([(3 : ℝ), 4]).length) ∧
      (predict [(3 : ℝ), 4] 0 [(1 : ℝ), 2]).confidence =
        max (predict [(3 : ℝ), 4] 0 [(1 : ℝ), 2]).fakeProbability
          (1 - (predict [(3 : ℝ), 4] 0 [(1 : ℝ), 2]).fakeProbability) :=
  ⟨rfl, (c4_predict_formula [(1 : ℝ), 2] [(3 : ℝ), 4] 0 rfl).2.2.2⟩

/-- Entries of a zero vector read as zero. -/
theorem getD_replicate_zero (n i : ℕ) :
    (List.replicate n (0 : ℝ)).getD i 0 = 0 := by
  induction n generalizing i with
  | zero => simp
  | succ n ih =>
      cases i with
      | zero => simp
      | succ i => simp

/-- When normalization yields no tokens at all, `transform` returns the
all-zero vector of vocabulary length (empty counts, zero sum of squares,
no division). -/
theorem transform_of_no_tokens (vocab : List (List Char)) (idf : List ℝ)
    (text : List Char) (h : stemmingWords text = []) :
    transform vocab idf text = List.replicate vocab.length 0 := by
  have htokens : splitWords (stemming text) = [] := by
    unfold stemming
    rw [h]
    rfl
  unfold transform
  rw [htokens]
  simp only [termCounts, List.foldl_nil, tfidfLoop]
  rw [if_neg (lt_irrefl 0)]

/-- Prediction on an all-zero feature vector reports `sigmoid(intercept)`. -/
theorem predict_zero_features (coef : List ℝ) (b : ℝ) (n : ℕ) :
    (predict coef b (List.replicate n 0)).fakeProbability = sigmoid b := by
  rw [predict_fakeProbability, scoreOf_eq_sum]
  have hsum :
      ∑ i ∈ Finset.range ((List.replicate n (0 : ℝ)).length),
        (List.replicate n (0 : ℝ)).getD i 0 * coef.getD i 0 = 0 :=
    Finset.sum_eq_zero (fun i _ => by rw [getD_replicate_zero]; ring)
  rw [hsum, add_zero]
  rfl

/-- C3: for any input whose normalization yields zero tokens (the empty
string in particular), `transform` returns the all-zero vector of
vocabulary length, and `predict` on that vector reports
`probability = sigmoid(intercept)`; both functions are total, so no
error can be raised. -/
theorem c3_empty_input_defined_behavior (vocab : List (List Char))
    (idf coef : List ℝ) (b : ℝ) (text : List Char)
    (hnone : stemmingWords text = [])
    (hidf : idf.length = vocab.length) (hcoef : coef.length = vocab.length) :
    transform vocab idf text = List.replicate vocab.length 0 ∧
      (predict coef b (transform vocab idf text)).fakeProbability =
        sigmoid b := by
  have htr := transform_of_no_tokens vocab idf text hnone
  exact ⟨htr, by rw [htr]; exact predict_zero_features coef b _⟩

/-- Witness for C3 at the empty string with a one-word bundle. -/
theorem c3_empty_input_defined_behavior_witness :
    stemmingWords [] = [] ∧
      transform ["report".toList] [(1 : ℝ)] [] =
        List.replicate (["report".toList]).length 0 ∧
      (predict [(1 : ℝ)] 2 (transform ["report".toList] [(1 : ℝ)] [])).fakeProbability =
        sigmoid 2 := by
  refine ⟨rfl, ?_, ?_⟩
  · exact (c3_empty_input_defined_behavior ["report".toList] [1] [1] 2 [] rfl rfl rfl).1
  · exact (c3_empty_input_defined_behavior ["report".toList] [1] [1] 2 [] rfl rfl rfl).2

/-- C2 (amended): `loadModel` performs no validation whatsoever — any
parsed model data, mismatched lengths or empty vocabulary included,
is wrapped into a vectorizer/classifier pair; `null` is returned only
when the fetch/parse step fails. -/
theorem c2_loadmodel_performs_no_validation (md : ModelData) :
    loadModel (some md) =
      some { vectorizer := { vocabulary := md.vocabulary, idfValues := md.idf_values }
             model := { coef := md.coefficients, intercept := md.intercept } } ∧
      loadModel none = none :=
  ⟨rfl, rfl⟩

/-- Counterexample to C2 as stated: a bundle with vocabulary length 1,
an empty IDF array and a two-entry coefficient array (both lengths
mismatched) is accepted by `loadModel`, and inference runs on it,
returning the defined probability `1/2` on empty input instead of any
error.  The coefficient array is longer than the vocabulary, so the
score loop reads only in-range coefficients and the JS trace is free of
`NaN`: `features = [0]`, `score = 0 + 0·3 = 0`, `sigmoid 0 = 1/2`. -/
theorem c2_counterexample :
    ((["ab".toList] : List (List Char)).length ≠ ([] : List ℝ).length) ∧
      ((["ab".toList] : List (List Char)).length ≠ ([(3 : ℝ), 4]).length) ∧
      loadModel (some (ModelData.mk ["ab".toList] [] [(3 : ℝ), 4] 0)) ≠ none ∧
      (predict [(3 : ℝ), 4] 0
        (transform ["ab".toList] [] [])).fakeProbability = 1 / 2 := by
  refine ⟨by decide, by decide, by simp [loadModel], ?_⟩
  have htr := transform_of_no_tokens ["ab".toList] [] [] rfl
  rw [htr]
  have hp := predict_zero_features ([(3 : ℝ), 4]) 0
    ((["ab".toList] : List (List Char)).length)
  rw [hp]
  unfold sigmoid
  rw [neg_zero, Real.exp_zero]
  norm_num

/-- Exhaustive description of what `applyRuleList` can return: the word
itself, or `st ++ replacement` for a member rule whose condition held on
a stem `st` obtained from the word by the `"*d"` marker or an ordinary
suffix strip. -/
theorem applyRuleList_result (word : List Char) (rules : List Rule) :
    applyRuleList word rules = word ∨
      ∃ r, r ∈ rules ∧ ∃ st,
        ((r.1 = starD ∧ endsDoubleConsonant word = true ∧
            st = word.take (word.length - 2)) ∨
          ((r.1 <:+ word) ∧ st = replaceSuffix word r.1 [])) ∧
        condApp r.2.2 st = true ∧
        applyRuleList word rules = st ++ r.2.1 := by
  induction rules with
  | nil => left; rfl
  | cons r rest ih =>
      obtain ⟨suffix, repl, cond⟩ := r
      simp only [applyRuleList]
      split_ifs with h1 h2 h3 h4
      · right
        exact ⟨(suffix, repl, cond), List.mem_cons_self _ _, _,
          Or.inl ⟨h1.1, h1.2, rfl⟩, h2, rfl⟩
      · left; rfl
      · right
        exact ⟨(suffix, repl, cond), List.mem_cons_self _ _, _,
          Or.inr ⟨h3, rfl⟩, h4, rfl⟩
      · left; rfl
      · rcases ih with h | ⟨r, hr, st, hshape, hcond, heq⟩
        · left; exact h
        · right
          exact ⟨r, List.mem_cons_of_mem _ hr, st, hshape, hcond, heq⟩

/-- A stem whose measure is positive is nonempty. -/
theorem ne_nil_of_porterMeasure_pos {s : List Char}
    (h : 0 < porterMeasure s) : s ≠ [] := by
  intro hs
  rw [hs] at h
  exact absurd h (by decide)

/-- A stem containing a vowel is nonempty. -/
theorem ne_nil_of_containsVowel {s : List Char}
    (h : containsVowel s = true) : s ≠ [] := by
  intro hs
  rw [hs] at h
  exact absurd h (by decide)

/-- Nonempty take: taking a positive count from a long-enough list. -/
theorem take_sub_ne_nil {w : List Char} {k : ℕ}
    (hk : k < w.length) : w.take (w.length - k) ≠ [] := by
  have hl : (w.take (w.length - k)).length = w.length - k := by
    rw [List.length_take]
    omega
  intro hc
  rw [hc] at hl
  simp only [List.length_nil] at hl
  omega

/-- `step1a` preserves nonemptiness for words of length at least 2. -/
theorem step1a_ne_nil {word : List Char} (h2 : 2 ≤ word.length) :
    step1a word ≠ [] := by
  have hw : word ≠ [] := by
    intro h
    rw [h] at h2
    exact absurd h2 (by decide)
  unfold step1a
  split_ifs with htop
  · rw [replaceSuffix_of_suffix _ htop.1 (by decide)]
    intro hc
    rw [List.append_eq_nil] at hc
    exact absurd hc.2 (by decide)
  · rcases applyRuleList_result word _ with heq | ⟨r, hr, st, hshape, hcond, heq⟩
    · rw [heq]; exact hw
    · rw [heq]
      fin_cases hr
      · intro hc; rw [List.append_eq_nil] at hc; exact absurd hc.2 (by decide)
      · intro hc; rw [List.append_eq_nil] at hc; exact absurd hc.2 (by decide)
      · intro hc; rw [List.append_eq_nil] at hc; exact absurd hc.2 (by decide)
      · rw [List.append_nil]
        rcases hshape with ⟨hsd, _⟩ | ⟨hsuf, hst⟩
        · exact absurd hsd (by decide)
        · subst hst
          rw [replaceSuffix_of_suffix _ hsuf (by decide), List.append_nil]
          refine take_sub_ne_nil ?_
          dsimp only
          have h1 : ("s".toList).length = 1 := rfl
          omega

/-- `replaceSuffix` with a nonempty replacement preserves nonemptiness. -/
theorem replaceSuffix_ne_nil {word suffix repl : List Char}
    (hw : word ≠ []) (hr : repl ≠ []) :
    replaceSuffix word suffix repl ≠ [] := by
  unfold replaceSuffix
  split_ifs
  · intro hc; rw [List.append_eq_nil] at hc; exact hr hc.2
  · intro hc; rw [List.append_eq_nil] at hc; exact hr hc.2
  · exact hw

/-- The cleanup rule list of `step1b` never empties a nonempty stem. -/
theorem step1b_cleanup_ne_nil (ist : List Char) (hist : ist ≠ []) :
    applyRuleList ist [
      ("at".toList, "ate".toList, none),
      ("bl".toList, "ble".toList, none),
      ("iz".toList, "ize".toList, none),
      (starD, [ist.getD (ist.length - 1) spaceChar],
        some (fun _ => !(['l', 's', 'z'].contains (ist.getD (ist.length - 1) spaceChar)))),
      ([], "e".toList,
        some (fun st => decide (porterMeasure st = 1) && endsCVC st))] ≠ [] := by
  rcases applyRuleList_result ist _ with heq | ⟨r, hr, st, hshape, hcond, heq⟩
  · rw [heq]; exact hist
  · rw [heq]
    fin_cases hr <;>
      (intro hc; rw [List.append_eq_nil] at hc;
       first
        | exact absurd hc.2 (by decide)
        | exact List.cons_ne_nil _ _ hc.2)

/-- `step1b` preserves nonemptiness. -/
theorem step1b_ne_nil {word : List Char} (hw : word ≠ []) :
    step1b word ≠ [] := by
  unfold step1b
  by_cases h1 : "ied".toList <:+ word
  · rw [if_pos h1]
    by_cases h2 : word.length = 4
    · rw [if_pos h2]; exact replaceSuffix_ne_nil hw (by decide)
    · rw [if_neg h2]; exact replaceSuffix_ne_nil hw (by decide)
  · rw [if_neg h1]
    by_cases h2 : "eed".toList <:+ word
    · rw [if_pos h2]
      dsimp only
      by_cases h3 : 0 < porterMeasure (replaceSuffix word ("eed".toList) [])
      · rw [if_pos h3]
        intro hc; rw [List.append_eq_nil] at hc; exact absurd hc.2 (by decide)
      · rw [if_neg h3]; exact hw
    · rw [if_neg h2]
      by_cases h3 : ("ed".toList <:+ word) ∧
          containsVowel (replaceSuffix word ("ed".toList) []) = true
      · rw [if_pos h3]
        exact step1b_cleanup_ne_nil _ (ne_nil_of_containsVowel h3.2)
      · rw [if_neg h3]
        by_cases h4 : ("ing".toList <:+ word) ∧
            containsVowel (replaceSuffix word ("ing".toList) []) = true
        · rw [if_pos h4]
          exact step1b_cleanup_ne_nil _ (ne_nil_of_containsVowel h4.2)
        · rw [if_neg h4]
          exact hw

/-- `step1c` preserves nonemptiness. -/
theorem step1c_ne_nil {word : List Char} (hw : word ≠ []) :
    step1c word ≠ [] := by
  unfold step1c
  rcases applyRuleList_result word _ with heq | ⟨r, hr, st, hshape, hcond, heq⟩
  · rw [heq]; exact hw
  · rw [heq]
    fin_cases hr
    intro hc; rw [List.append_eq_nil] at hc; exact absurd hc.2 (by decide)

/-- The step-2 rule table never empties a nonempty word. -/
theorem step2Rules_ne_nil (w word : List Char) (hw : word ≠ []) :
    applyRuleList word (step2Rules w) ≠ [] := by
  rcases applyRuleList_result word _ with heq | ⟨r, hr, st, hshape, hcond, heq⟩
  · rw [heq]; exact hw
  · rw [heq]
    fin_cases hr <;>
      (intro hc; rw [List.append_eq_nil] at hc; obtain ⟨hc1, hc2⟩ := hc;
       dsimp only at hc2; exact absurd hc2 (by decide))

/-- `step2` preserves nonemptiness. -/
theorem step2_ne_nil {word : List Char} (hw : word ≠ []) :
    step2 word ≠ [] := by
  rw [step2_eq_nr]
  unfold step2NR
  split_ifs with h
  · exact step2Rules_ne_nil _ _ (replaceSuffix_ne_nil hw (by decide))
  · exact step2Rules_ne_nil _ _ hw

/-- `step3` preserves nonemptiness. -/
theorem step3_ne_nil {word : List Char} (hw : word ≠ []) :
    step3 word ≠ [] := by
  unfold step3
  rcases applyRuleList_result word _ with heq | ⟨r, hr, st, hshape, hcond, heq⟩
  · rw [heq]; exact hw
  · rw [heq]
    fin_cases hr <;>
      first
      | (intro hc; rw [List.append_eq_nil] at hc; exact absurd hc.2 (by decide))
      | (rw [List.append_nil]
         simp only [condApp, hasPositiveMeasure, decide_eq_true_eq] at hcond
         exact ne_nil_of_porterMeasure_pos hcond)

/-- `step4` preserves nonemptiness. -/
theorem step4_ne_nil {word : List Char} (hw : word ≠ []) :
    step4 word ≠ [] := by
  unfold step4
  rcases applyRuleList_result word _ with heq | ⟨r, hr, st, hshape, hcond, heq⟩
  · rw [heq]; exact hw
  · rw [heq]
    fin_cases hr <;>
      (rw [List.append_nil]
       simp only [condApp, Bool.and_eq_true, decide_eq_true_eq] at hcond
       refine ne_nil_of_porterMeasure_pos ?_
       omega)

/-- `step5a` preserves nonemptiness. -/
theorem step5a_ne_nil {word : List Char} (hw : word ≠ []) :
    step5a word ≠ [] := by
  unfold step5a
  by_cases h1 : "e".toList <:+ word
  · rw [if_pos h1]
    dsimp only
    by_cases h2 : 1 < porterMeasure (replaceSuffix word ("e".toList) [])
    · rw [if_pos h2]
      exact ne_nil_of_porterMeasure_pos (by omega)
    · rw [if_neg h2]
      by_cases h3 : porterMeasure (replaceSuffix word ("e".toList) []) = 1 ∧
          ¬(endsCVC (replaceSuffix word ("e".toList) []) = true)
      · rw [if_pos h3]
        exact ne_nil_of_porterMeasure_pos (by omega)
      · rw [if_neg h3]; exact hw
  · rw [if_neg h1]; exact hw

/-- `step5b` preserves nonemptiness. -/
theorem step5b_ne_nil {word : List Char} (hw : word ≠ []) :
    step5b word ≠ [] := by
  unfold step5b
  rcases applyRuleList_result word _ with heq | ⟨r, hr, st, hshape, hcond, heq⟩
  · rw [heq]; exact hw
  · rw [heq]
    fin_cases hr
    intro hc; rw [List.append_eq_nil] at hc; obtain ⟨hc1, hc2⟩ := hc
    dsimp only at hc2; exact absurd hc2 (by decide)

/-- Values stored in the irregular-form pool are nonempty. -/
theorem poolLookup_value_ne_nil {w v : List Char}
    (h : poolLookup w pool = some v) : v ≠ [] := by
  have hmem := poolLookup_mem _ _ _ h
  rw [pool_eq] at hmem
  simp only [List.mem_cons, List.not_mem_nil, or_false] at hmem
  rcases hmem with h1|h1|h1|h1|h1|h1|h1|h1|h1|h1|h1|h1|h1|h1|h1|h1 <;>
    (injection h1 with hw hv; subst hv; decide)

/-- `stem` never returns the empty string on a nonempty input. -/
theorem stem_ne_nil {w : List Char} (hw : w ≠ []) : stem w ≠ [] := by
  have hmap : w.map Char.toLower ≠ [] := by
    intro hc
    exact hw (List.map_eq_nil_iff.mp hc)
  unfold stem
  dsimp only
  cases hp : poolLookup (List.map Char.toLower w) pool with
  | some s => exact poolLookup_value_ne_nil hp
  | none =>
      by_cases hlen : (List.map Char.toLower w).length ≤ 2
      · rw [if_pos hlen]; exact hmap
      · rw [if_neg hlen]
        push_neg at hlen
        have h1a : step1a (List.map Char.toLower w) ≠ [] :=
          step1a_ne_nil (by omega)
        exact step5b_ne_nil (step5a_ne_nil (step4_ne_nil (step3_ne_nil
          (step2_ne_nil (step1c_ne_nil (step1b_ne_nil h1a))))))

/-- An in-range default read is a member of the list. -/
theorem getD_mem {l : List Char} {i : ℕ} (h : i < l.length) (d : Char) :
    l.getD i d ∈ l := by
  rw [List.getD_eq_getElem?_getD, List.getElem?_eq_getElem h, Option.getD_some]
  exact List.getElem_mem h

/-- Tokens produced by `splitAux` from a blank-free accumulator are
nonempty and blank-free. -/
theorem mem_splitAux {t : List Char} :
    ∀ (l acc : List Char), spaceChar ∉ acc → t ∈ splitAux l acc →
      t ≠ [] ∧ spaceChar ∉ t := by
  intro l
  induction l with
  | nil =>
      intro acc hacc ht
      unfold splitAux at ht
      split_ifs at ht with h
      · exact absurd ht (List.not_mem_nil t)
      · rw [List.mem_singleton] at ht
        subst ht
        refine ⟨fun hc => h (List.reverse_eq_nil_iff.mp hc), ?_⟩
        intro hc
        exact hacc (List.mem_reverse.mp hc)
  | cons c rest ih =>
      intro acc hacc ht
      unfold splitAux at ht
      split_ifs at ht with h1 h2
      · exact ih [] (List.not_mem_nil _) ht
      · rw [List.mem_cons] at ht
        rcases ht with ht | ht
        · subst ht
          refine ⟨fun hc => h2 (List.reverse_eq_nil_iff.mp hc), ?_⟩
          intro hc
          exact hacc (List.mem_reverse.mp hc)
        · exact ih [] (List.not_mem_nil _) ht
      · refine ih (c :: acc) ?_ ht
        intro hc
        rw [List.mem_cons] at hc
        rcases hc with hc | hc
        · exact h1 hc.symm
        · exact hacc hc

/-- Tokens of `splitWords` are nonempty and blank-free. -/
theorem mem_splitWords {t l : List Char} (ht : t ∈ splitWords l) :
    t ≠ [] ∧ spaceChar ∉ t :=
  mem_splitAux l [] (List.not_mem_nil _) ht

/-- C1 (amended): `normalize` never emits an empty token, and the words
it stems were filtered against the stopword set before stemming. -/
theorem c1_normalize_no_empty_token (content : List Char) :
    (∀ t ∈ stemmingWords content, t ≠ []) ∧
      (∀ w ∈ (splitWords
          ((content.map (fun c => if isAlphaChar c then c else spaceChar)).map
            Char.toLower)).filter (fun w => !(STOPWORDS.contains w)),
        w ∉ STOPWORDS) := by
  constructor
  · intro t ht
    unfold stemmingWords at ht
    rw [List.mem_map] at ht
    obtain ⟨w, hw, hstem⟩ := ht
    rw [List.mem_filter] at hw
    have hfacts := mem_splitWords hw.1
    rw [← hstem]
    exact stem_ne_nil hfacts.1
  · intro w hw
    rw [List.mem_filter] at hw
    intro hc
    have h2 := hw.2
    simp only [Bool.not_eq_eq_eq_not, Bool.not_true] at h2
    simp at h2
    exact h2 hc

/-- Counterexample to C1 as stated: the non-stopword `"dos"` stems to
`"do"`, which is in the stopword set, so `normalize` can emit stopwords
(stopwords are removed before stemming, not after). -/
theorem c1_counterexample :
    stemmingWords ("dos".toList) = [['d', 'o']] ∧ ['d', 'o'] ∈ STOPWORDS := by
  constructor
  · rw [stemmingWords_eq_nr]
    decide
  · decide

/-- Witness for C1 at the concrete content `"ab"`. -/
theorem c1_normalize_no_empty_token_witness :
    ("ab".toList ∈ stemmingWords ("ab".toList)) ∧ "ab".toList ≠ ([] : List Char) :=
  ⟨by rw [stemmingWords_eq_nr]; decide,
   (c1_normalize_no_empty_token ("ab".toList)).1 _
     (by rw [stemmingWords_eq_nr]; decide)⟩

/-- Characters of `replaceSuffix` come from the word or the replacement. -/
theorem replaceSuffix_chars {word suffix repl : List Char} {c : Char}
    (hc : c ∈ replaceSuffix word suffix repl) : c ∈ word ∨ c ∈ repl := by
  unfold replaceSuffix at hc
  split_ifs at hc
  · rw [List.mem_append] at hc
    exact hc
  · rw [List.mem_append] at hc
    rcases hc with hc | hc
    · exact Or.inl (List.take_subset _ _ hc)
    · exact Or.inr hc
  · exact Or.inl hc

/-- Characters of `applyRuleList` come from the word or some rule's
replacement. -/
theorem applyRuleList_chars (word : List Char) (rules : List Rule) {c : Char}
    (hc : c ∈ applyRuleList word rules) :
    c ∈ word ∨ ∃ r ∈ rules, c ∈ r.2.1 := by
  rcases applyRuleList_result word rules with heq | ⟨r, hr, st, hshape, hcond, heq⟩
  · rw [heq] at hc
    exact Or.inl hc
  · rw [heq, List.mem_append] at hc
    rcases hc with hc | hc
    · rcases hshape with ⟨_, _, hst⟩ | ⟨_, hst⟩
      · subst hst
        exact Or.inl (List.take_subset _ _ hc)
      · subst hst
        rcases replaceSuffix_chars hc with h | h
        · exact Or.inl h
        · exact absurd h (List.not_mem_nil c)
    · exact Or.inr ⟨r, hr, hc⟩

/-- A rule list whose replacements are blank-free cannot introduce a
blank. -/
theorem no_space_of_rules (word : List Char) (rules : List Rule)
    (hw : spaceChar ∉ word) (hr : ∀ r ∈ rules, spaceChar ∉ r.2.1) :
    spaceChar ∉ applyRuleList word rules := by
  intro hc
  rcases applyRuleList_chars word rules hc with h | ⟨r, hrr, h⟩
  · exact hw h
  · exact hr r hrr h

/-- `step1a` introduces no blank. -/
theorem step1a_no_space {word : List Char} (hw : spaceChar ∉ word) :
    spaceChar ∉ step1a word := by
  unfold step1a
  split_ifs
  · intro hc
    rcases replaceSuffix_chars hc with h | h
    · exact hw h
    · exact absurd h (by decide)
  · refine no_space_of_rules _ _ hw ?_
    intro r hrr
    fin_cases hrr <;> (dsimp only; decide)

/-- The cleanup rule list of `step1b` introduces no blank. -/
theorem step1b_cleanup_no_space (ist : List Char) (hist : ist ≠ [])
    (hns : spaceChar ∉ ist) :
    spaceChar ∉ applyRuleList ist [
      ("at".toList, "ate".toList, none),
      ("bl".toList, "ble".toList, none),
      ("iz".toList, "ize".toList, none),
      (starD, [ist.getD (ist.length - 1) spaceChar],
        some (fun _ => !(['l', 's', 'z'].contains (ist.getD (ist.length - 1) spaceChar)))),
      ([], "e".toList,
        some (fun st => decide (porterMeasure st = 1) && endsCVC st))] := by
  refine no_space_of_rules _ _ hns ?_
  intro r hrr
  fin_cases hrr
  · dsimp only; decide
  · dsimp only; decide
  · dsimp only; decide
  · dsimp only
    intro hc
    rw [List.mem_singleton] at hc
    refine hns ?_
    rw [hc]
    refine getD_mem ?_ _
    have : 0 < ist.length := List.length_pos.mpr hist
    omega
  · dsimp only; decide

/-- `step1b` introduces no blank. -/
theorem step1b_no_space {word : List Char} (hw : spaceChar ∉ word) :
    spaceChar ∉ step1b word := by
  unfold step1b
  by_cases h1 : "ied".toList <:+ word
  · rw [if_pos h1]
    split_ifs <;>
      (intro hc
       rcases replaceSuffix_chars hc with h | h
       · exact hw h
       · exact absurd h (by decide))
  · rw [if_neg h1]
    by_cases h2 : "eed".toList <:+ word
    · rw [if_pos h2]
      dsimp only
      split_ifs with h3
      · intro hc
        rw [List.mem_append] at hc
        rcases hc with hc | hc
        · rcases replaceSuffix_chars hc with h | h
          · exact hw h
          · exact absurd h (by decide)
        · exact absurd hc (by decide)
      · exact hw
    · rw [if_neg h2]
      by_cases h3 : ("ed".toList <:+ word) ∧
          containsVowel (replaceSuffix word ("ed".toList) []) = true
      · rw [if_pos h3]
        refine step1b_cleanup_no_space _ (ne_nil_of_containsVowel h3.2) ?_
        intro hc
        rcases replaceSuffix_chars hc with h | h
        · exact hw h
        · exact absurd h (List.not_mem_nil _)
      · rw [if_neg h3]
        by_cases h4 : ("ing".toList <:+ word) ∧
            containsVowel (replaceSuffix word ("ing".toList) []) = true
        · rw [if_pos h4]
          refine step1b_cleanup_no_space _ (ne_nil_of_containsVowel h4.2) ?_
          intro hc
          rcases replaceSuffix_chars hc with h | h
          · exact hw h
          · exact absurd h (List.not_mem_nil _)
        · rw [if_neg h4]
          exact hw

/-- `step1c` introduces no blank. -/
theorem step1c_no_space {word : List Char} (hw : spaceChar ∉ word) :
    spaceChar ∉ step1c word := by
  unfold step1c
  refine no_space_of_rules _ _ hw ?_
  intro r hrr
  fin_cases hrr
  dsimp only; decide

/-- The step-2 rule table introduces no blank. -/
theorem step2Rules_no_space (w word : List Char) (hw : spaceChar ∉ word) :
    spaceChar ∉ applyRuleList word (step2Rules w) := by
  refine no_space_of_rules _ _ hw ?_
  intro r hrr
  fin_cases hrr <;> (dsimp only; decide)

/-- `step2` introduces no blank. -/
theorem step2_no_space {word : List Char} (hw : spaceChar ∉ word) :
    spaceChar ∉ step2 word := by
  rw [step2_eq_nr]
  unfold step2NR
  split_ifs with h
  · refine step2Rules_no_space _ _ ?_
    intro hc
    rcases replaceSuffix_chars hc with hm | hm
    · exact hw hm
    · exact absurd hm (by decide)
  · exact step2Rules_no_space _ _ hw

/-- `step3` introduces no blank. -/
theorem step3_no_space {word : List Char} (hw : spaceChar ∉ word) :
    spaceChar ∉ step3 word := by
  unfold step3
  refine no_space_of_rules _ _ hw ?_
  intro r hrr
  fin_cases hrr <;> (dsimp only; decide)

/-- `step4` introduces no blank. -/
theorem step4_no_space {word : List Char} (hw : spaceChar ∉ word) :
    spaceChar ∉ step4 word := by
  unfold step4
  refine no_space_of_rules _ _ hw ?_
  intro r hrr
  fin_cases hrr <;> (dsimp only; decide)

/-- `step5a` introduces no blank. -/
theorem step5a_no_space {word : List Char} (hw : spaceChar ∉ word) :
    spaceChar ∉ step5a word := by
  unfold step5a
  by_cases h1 : "e".toList <:+ word
  · rw [if_pos h1]
    dsimp only
    split_ifs
    · intro hc
      rcases replaceSuffix_chars hc with h | h
      · exact hw h
      · exact absurd h (List.not_mem_nil _)
    · intro hc
      rcases replaceSuffix_chars hc with h | h
      · exact hw h
      · exact absurd h (List.not_mem_nil _)
    · exact hw
  · rw [if_neg h1]
    exact hw

/-- `step5b` introduces no blank. -/
theorem step5b_no_space {word : List Char} (hw : spaceChar ∉ word) :
    spaceChar ∉ step5b word := by
  unfold step5b
  refine no_space_of_rules _ _ hw ?_
  intro r hrr
  fin_cases hrr
  dsimp only; decide

/-- Values stored in the irregular-form pool are blank-free. -/
theorem poolLookup_value_no_space {w v : List Char}
    (h : poolLookup w pool = some v) : spaceChar ∉ v := by
  have hmem := poolLookup_mem _ _ _ h
  rw [pool_eq] at hmem
  simp only [List.mem_cons, List.not_mem_nil, or_false] at hmem
  rcases hmem with h1|h1|h1|h1|h1|h1|h1|h1|h1|h1|h1|h1|h1|h1|h1|h1 <;>
    (injection h1 with hw hv; subst hv; decide)

/-- `stem` introduces no blank. -/
theorem stem_no_space {w : List Char} (hw : spaceChar ∉ w) :
    spaceChar ∉ stem w := by
  have hmap : spaceChar ∉ w.map Char.toLower := by
    intro hc
    rw [List.mem_map] at hc
    obtain ⟨a, ha, heq⟩ := hc
    exact toLower_ne_space (fun h => hw (h ▸ ha)) heq
  unfold stem
  dsimp only
  cases hp : poolLookup (List.map Char.toLower w) pool with
  | some s => exact poolLookup_value_no_space hp
  | none =>
      split_ifs
      · exact hmap
      · exact step5b_no_space (step5a_no_space (step4_no_space (step3_no_space
          (step2_no_space (step1c_no_space (step1b_no_space
            (step1a_no_space hmap)))))))

/-- Scanning a blank-free chunk just moves it into the accumulator. -/
theorem splitAux_append_no_space (w : List Char) (hw : spaceChar ∉ w) :
    ∀ (l acc : List Char), splitAux (w ++ l) acc = splitAux l (w.reverse ++ acc) := by
  induction w with
  | nil => intro l acc; rfl
  | cons c cs ih =>
      intro l acc
      have hc : ¬ (c = spaceChar) := by
        intro h
        exact hw (h ▸ List.mem_cons_self c cs)
      have hcs : spaceChar ∉ cs := fun h => hw (List.mem_cons_of_mem _ h)
      have h1 : splitAux ((c :: cs) ++ l) acc = splitAux (cs ++ l) (c :: acc) := by
        rw [List.cons_append]
        conv_lhs => rw [splitAux]
        rw [if_neg hc]
      rw [h1, ih hcs l (c :: acc), List.reverse_cons, List.append_assoc,
        List.singleton_append]

/-- Splitting the blank-joined concatenation of nonempty blank-free
words recovers them exactly (the split/join round trip inside
`SimpleTFIDF.transform`). -/
theorem splitWords_joinSpace (ws : List (List Char))
    (h : ∀ w ∈ ws, w ≠ [] ∧ spaceChar ∉ w) :
    splitWords (joinSpace ws) = ws := by
  induction ws with
  | nil => rfl
  | cons w ws ih =>
      obtain ⟨hne, hns⟩ := h w (List.mem_cons_self _ _)
      have hrev : ¬ (w.reverse = []) := fun hc => hne (List.reverse_eq_nil_iff.mp hc)
      have key := splitAux_append_no_space w hns
      cases ws with
      | nil =>
          show splitAux (joinSpace [w]) [] = [w]
          have hj : joinSpace [w] = w := rfl
          have key2 := key [] []
          rw [List.append_nil, List.append_nil] at key2
          rw [hj, key2]
          conv_lhs => rw [splitAux]
          rw [if_neg hrev, List.reverse_reverse]
      | cons w2 ws2 =>
          show splitAux (joinSpace (w :: w2 :: ws2)) [] = w :: w2 :: ws2
          have hj : joinSpace (w :: w2 :: ws2) =
              w ++ spaceChar :: joinSpace (w2 :: ws2) := rfl
          rw [hj, key _ [], List.append_nil]
          have hstep : splitAux (spaceChar :: joinSpace (w2 :: ws2)) w.reverse =
              w.reverse.reverse :: splitAux (joinSpace (w2 :: ws2)) [] := by
            conv_lhs => rw [splitAux]
            rw [if_pos rfl, if_neg hrev]
          rw [hstep, List.reverse_reverse]
          congr 1
          exact ih (fun x hx => h x (List.mem_cons_of_mem _ hx))

/-- The token list `SimpleTFIDF.transform` recovers by re-splitting the
blank-joined `stemming` output is exactly the normalized word list. -/
theorem transform_tokens_eq (text : List Char) :
    splitWords (stemming text) = stemmingWords text := by
  unfold stemming
  refine splitWords_joinSpace _ ?_
  intro w hw
  unfold stemmingWords at hw
  rw [List.mem_map] at hw
  obtain ⟨x, hx, hstem⟩ := hw
  rw [List.mem_filter] at hx
  have hfacts := mem_splitWords hx.1
  rw [← hstem]
  exact ⟨stem_ne_nil hfacts.1, stem_no_space hfacts.2⟩

/- ### Term-counting lemmas -/

/-- `bump` on a present key keeps the key list. -/
theorem bump_keys_eq (m : List (List Char × ℕ)) (w : List Char)
    (h : (m.map Prod.fst).contains w = true) :
    (bump m w).map Prod.fst = m.map Prod.fst := by
  unfold bump
  rw [if_pos h, List.map_map]
  apply List.map_congr_left
  intro p hp
  dsimp only [Function.comp]
  split_ifs with hc
  · rfl
  · rfl

/-- `bump` on an absent key appends it. -/
theorem bump_keys_append (m : List (List Char × ℕ)) (w : List Char)
    (h : ¬ (m.map Prod.fst).contains w = true) :
    (bump m w).map Prod.fst = m.map Prod.fst ++ [w] := by
  unfold bump
  rw [if_neg h, List.map_append]
  rfl

/-- `bump` preserves distinctness of keys. -/
theorem bump_nodup (m : List (List Char × ℕ)) (w : List Char)
    (h : (m.map Prod.fst).Nodup) : ((bump m w).map Prod.fst).Nodup := by
  by_cases hc : (m.map Prod.fst).contains w = true
  · rw [bump_keys_eq m w hc]
    exact h
  · rw [bump_keys_append m w hc]
    have hw : w ∉ m.map Prod.fst := by simpa using hc
    rw [List.nodup_append]
    refine ⟨h, List.nodup_singleton w, ?_⟩
    intro a ha hb
    rw [List.mem_singleton] at hb
    subst hb
    exact hw ha

/-- Key membership after `bump`. -/
theorem bump_mem (m : List (List Char × ℕ)) (w x : List Char) :
    x ∈ (bump m w).map Prod.fst ↔ x ∈ m.map Prod.fst ∨ x = w := by
  by_cases hc : (m.map Prod.fst).contains w = true
  · rw [bump_keys_eq m w hc]
    have hw : w ∈ m.map Prod.fst := by simpa using hc
    constructor
    · exact Or.inl
    · intro h
      rcases h with h | h
      · exact h
      · rw [h]; exact hw
  · rw [bump_keys_append m w hc, List.mem_append, List.mem_singleton]

/-- `bump` keeps all counts at least 1. -/
theorem bump_counts_pos (m : List (List Char × ℕ)) (w : List Char)
    (h : ∀ p ∈ m, 1 ≤ p.2) : ∀ p ∈ bump m w, 1 ≤ p.2 := by
  unfold bump
  split_ifs with hc
  · intro p hp
    rw [List.mem_map] at hp
    obtain ⟨q, hq, he⟩ := hp
    rw [← he]
    split_ifs
    · dsimp only
      have := h q hq
      omega
    · exact h q hq
  · intro p hp
    rw [List.mem_append, List.mem_singleton] at hp
    rcases hp with hp | hp
    · exact h p hp
    · rw [hp]

/-- The keys of the folded counts map are distinct. -/
theorem foldl_bump_nodup (tokens : List (List Char)) :
    ∀ m, (m.map Prod.fst).Nodup → ((tokens.foldl bump m).map Prod.fst).Nodup := by
  induction tokens with
  | nil => intro m h; exact h
  | cons t ts ih => intro m h; exact ih _ (bump_nodup m t h)

/-- All folded counts are at least 1. -/
theorem foldl_bump_counts (tokens : List (List Char)) :
    ∀ m, (∀ p ∈ m, 1 ≤ p.2) → ∀ p ∈ tokens.foldl bump m, 1 ≤ p.2 := by
  induction tokens with
  | nil => intro m h; exact h
  | cons t ts ih => intro m h; exact ih _ (bump_counts_pos m t h)

/-- Key membership of the folded counts map. -/
theorem foldl_bump_keys (tokens : List (List Char)) :
    ∀ m x, x ∈ ((tokens.foldl bump m).map Prod.fst) ↔
      x ∈ m.map Prod.fst ∨ x ∈ tokens := by
  induction tokens with
  | nil => intro m x; simp
  | cons t ts ih =>
      intro m x
      rw [List.foldl_cons, ih (bump m t) x, bump_mem m t x, List.mem_cons]
      tauto

/-- `termCounts` has distinct keys. -/
theorem termCounts_nodup (tokens : List (List Char)) :
    ((termCounts tokens).map Prod.fst).Nodup :=
  foldl_bump_nodup tokens [] (by simp)

/-- `termCounts` counts are at least 1. -/
theorem termCounts_pos (tokens : List (List Char)) :
    ∀ p ∈ termCounts tokens, 1 ≤ p.2 :=
  foldl_bump_counts tokens [] (by simp)

/-- `termCounts` keys are exactly the tokens. -/
theorem termCounts_keys (tokens : List (List Char)) (x : List Char) :
    x ∈ (termCounts tokens).map Prod.fst ↔ x ∈ tokens := by
  unfold termCounts
  rw [foldl_bump_keys tokens [] x]
  simp

/- ### vocabMap lemmas -/

/-- What a successful `vocabMap` lookup says about the vocabulary. -/
theorem vocabMapFrom_spec :
    ∀ (v : List (List Char)) (s : ℕ) (x : List Char) (i : ℕ),
      vocabMapFrom s v x = some i →
      s ≤ i ∧ i - s < v.length ∧ v.getD (i - s) [] = x := by
  intro v
  induction v with
  | nil => intro s x i h; cases h
  | cons w rest ih =>
      intro s x i h
      unfold vocabMapFrom at h
      cases hm : vocabMapFrom (s + 1) rest x with
      | some j =>
          rw [hm] at h
          injection h with hij
          rw [← hij]
          obtain ⟨h1, h2, h3⟩ := ih (s + 1) x j hm
          refine ⟨by omega, by simp only [List.length_cons]; omega, ?_⟩
          have he : j - s = (j - (s + 1)) + 1 := by omega
          rw [he, List.getD_cons_succ]
          exact h3
      | none =>
          rw [hm] at h
          split_ifs at h with hx
          · injection h with hij
            rw [← hij]
            refine ⟨le_refl s, by simp, ?_⟩
            rw [Nat.sub_self, List.getD_cons_zero]
            exact hx.symm

/-- A `vocabMap` hit is an in-range index pointing at the word. -/
theorem vocabMap_spec {vocab : List (List Char)} {x : List Char} {i : ℕ}
    (h : vocabMap vocab x = some i) :
    i < vocab.length ∧ vocab.getD i [] = x := by
  obtain ⟨h1, h2, h3⟩ := vocabMapFrom_spec vocab 0 x i h
  rw [Nat.sub_zero] at h2 h3
  exact ⟨h2, h3⟩

/-- `vocabMap` assigns an index to at most one word. -/
theorem vocabMap_inj {vocab : List (List Char)} {x y : List Char} {i : ℕ}
    (hx : vocabMap vocab x = some i) (hy : vocabMap vocab y = some i) :
    x = y := by
  obtain ⟨_, hgx⟩ := vocabMap_spec hx
  obtain ⟨_, hgy⟩ := vocabMap_spec hy
  rw [← hgx, ← hgy]

/- ### Sum-of-squares and loop lemmas -/

/-- Sums of squares are nonnegative. -/
theorem sumSq_nonneg (v : List ℝ) : 0 ≤ sumSq v := by
  unfold sumSq
  apply List.sum_nonneg
  intro x hx
  rw [List.mem_map] at hx
  obtain ⟨y, _, he⟩ := hx
  rw [← he]
  exact mul_self_nonneg y

/-- The all-zero vector has zero sum of squares. -/
theorem sumSq_replicate_zero (n : ℕ) : sumSq (List.replicate n (0 : ℝ)) = 0 := by
  unfold sumSq
  rw [List.map_replicate]
  simp

/-- Writing at a different index does not change a default read. -/
theorem getD_set_ne : ∀ (l : List ℝ) (i j : ℕ) (v : ℝ), i ≠ j →
    (l.set i v).getD j 0 = l.getD j 0 := by
  intro l
  induction l with
  | nil => intro i j v _; rfl
  | cons a t ih =>
      intro i j v h
      cases i with
      | zero =>
          cases j with
          | zero => exact absurd rfl h
          | succ j => rfl
      | succ i =>
          cases j with
          | zero => rfl
          | succ j =>
              have : i ≠ j := fun hc => h (by rw [hc])
              simp only [List.set_cons_succ, List.getD_cons_succ]
              exact ih i j v this

/-- Writing a value over a zero entry adds its square to the sum of
squares. -/
theorem sumSq_set : ∀ (l : List ℝ) (i : ℕ) (v : ℝ), i < l.length →
    l.getD i 0 = 0 → sumSq (l.set i v) = sumSq l + v * v := by
  intro l
  induction l with
  | nil =>
      intro i v h
      simp at h
  | cons a t ih =>
      intro i v hlt hz
      cases i with
      | zero =>
          simp only [List.getD_cons_zero] at hz
          subst hz
          unfold sumSq
          simp only [List.set_cons_zero, List.map_cons, List.sum_cons]
          ring
      | succ i =>
          simp only [List.getD_cons_succ] at hz
          have hlt2 : i < t.length := by
            simp only [List.length_cons] at hlt
            omega
          unfold sumSq at *
          simp only [List.set_cons_succ, List.map_cons, List.sum_cons]
          rw [ih i v hlt2 hz]
          ring

/-- The feature array keeps its length through the loop. -/
theorem tfidfLoop_fst_length (idf : List ℝ) (vmap : List Char → Option ℕ) :
    ∀ (ps : List (List Char × ℕ)) (fs : List ℝ) (ss : ℝ),
      (tfidfLoop idf vmap ps fs ss).1.length = fs.length := by
  intro ps
  induction ps with
  | nil => intro fs ss; rfl
  | cons p rest ih =>
      intro fs ss
      obtain ⟨w, c⟩ := p
      unfold tfidfLoop
      cases hv : vmap w with
      | some idx =>
          rw [ih]
          exact List.length_set fs idx _
      | none => exact ih fs ss

/-- The accumulator after the loop is the initial value plus the sum of
the per-entry payloads. -/
theorem tfidfLoop_snd (idf : List ℝ) (vmap : List Char → Option ℕ) :
    ∀ (ps : List (List Char × ℕ)) (fs : List ℝ) (ss : ℝ),
      (tfidfLoop idf vmap ps fs ss).2 =
        ss + (ps.map (payload idf vmap)).sum := by
  intro ps
  induction ps with
  | nil => intro fs ss; simp [tfidfLoop]
  | cons p rest ih =>
      intro fs ss
      obtain ⟨w, c⟩ := p
      unfold tfidfLoop
      rw [List.map_cons, List.sum_cons]
      cases hv : vmap w with
      | some idx =>
          rw [ih]
          have hp : payload idf vmap (w, c) =
              ((c : ℝ) * idf.getD idx 0) * ((c : ℝ) * idf.getD idx 0) := by
            unfold payload
            rw [hv]
          rw [hp]
          ring
      | none =>
          rw [ih]
          have hp : payload idf vmap (w, c) = 0 := by
            unfold payload
            rw [hv]
          rw [hp]
          ring

/-- Loop invariant: starting from a vector whose pending indices are all
zero, with distinct keys and an injective vocabulary map, the
accumulator equals the sum of squares of the produced feature vector. -/
theorem tfidfLoop_sumSq (idf : List ℝ) (vocab : List (List Char)) :
    ∀ (ps : List (List Char × ℕ)) (fs : List ℝ) (ss : ℝ),
      fs.length = vocab.length →
      (ps.map Prod.fst).Nodup →
      (∀ p ∈ ps, ∀ i, vocabMap vocab p.1 = some i → fs.getD i 0 = 0) →
      ss = sumSq fs →
      (tfidfLoop idf (vocabMap vocab) ps fs ss).2 =
        sumSq (tfidfLoop idf (vocabMap vocab) ps fs ss).1 := by
  intro ps
  induction ps with
  | nil =>
      intro fs ss _ _ _ hss
      exact hss
  | cons p rest ih =>
      intro fs ss hlen hnd hfresh hss
      obtain ⟨w, c⟩ := p
      have hnd2 : (w :: rest.map Prod.fst).Nodup := by simpa using hnd
      unfold tfidfLoop
      cases hv : vocabMap vocab w with
      | none =>
          exact ih fs ss hlen (List.nodup_cons.mp hnd2).2
            (fun p hp i hi => hfresh p (List.mem_cons_of_mem _ hp) i hi) hss
      | some idx =>
          have hidx : idx < vocab.length := (vocabMap_spec hv).1
          have hidx2 : idx < fs.length := by rw [hlen]; exact hidx
          have hz : fs.getD idx 0 = 0 := hfresh (w, c) (List.mem_cons_self _ _) idx hv
          refine ih _ _ ?_ (List.nodup_cons.mp hnd2).2 ?_ ?_
          · rw [List.length_set]
            exact hlen
          · intro p hp i hi
            have hne : p.1 ≠ w := by
              intro hc
              have hmem : p.1 ∈ rest.map Prod.fst := List.mem_map_of_mem _ hp
              rw [hc] at hmem
              exact (List.nodup_cons.mp hnd2).1 hmem
            have hine : i ≠ idx := fun hc => hne (vocabMap_inj (hc ▸ hi) hv)
            rw [getD_set_ne _ _ _ _ (fun hc => hine hc.symm)]
            exact hfresh p (List.mem_cons_of_mem _ hp) i hi
          · rw [sumSq_set fs idx _ hidx2 hz, hss]

/-- Payloads are nonnegative. -/
theorem payload_nonneg (idf : List ℝ) (vmap : List Char → Option ℕ)
    (p : List Char × ℕ) : 0 ≤ payload idf vmap p := by
  unfold payload
  cases vmap p.1 with
  | some idx => exact mul_self_nonneg _
  | none => exact le_refl 0

/-- A sum of payloads vanishes exactly when every payload vanishes. -/
theorem payloadSum_eq_zero_iff (idf : List ℝ) (vmap : List Char → Option ℕ)
    (ps : List (List Char × ℕ)) :
    (ps.map (payload idf vmap)).sum = 0 ↔
      ∀ p ∈ ps, payload idf vmap p = 0 := by
  induction ps with
  | nil => simp
  | cons p rest ih =>
      rw [List.map_cons, List.sum_cons]
      have h1 := payload_nonneg idf vmap p
      have h2 : 0 ≤ (rest.map (payload idf vmap)).sum := by
        apply List.sum_nonneg
        intro x hx
        rw [List.mem_map] at hx
        obtain ⟨q, _, he⟩ := hx
        rw [← he]
        exact payload_nonneg idf vmap q
      rw [add_eq_zero_iff_of_nonneg h1 h2, ih]
      constructor
      · rintro ⟨hp, hrest⟩ q hq
        rcases List.mem_cons.mp hq with hq | hq
        · rw [hq]; exact hp
        · exact hrest q hq
      · intro h
        exact ⟨h p (List.mem_cons_self _ _),
          fun q hq => h q (List.mem_cons_of_mem _ hq)⟩

/-- For an entry with positive count, a vanishing payload says exactly
that the IDF weight at its vocabulary index is zero. -/
theorem payload_eq_zero_iff (idf : List ℝ) (vocab : List (List Char))
    (p : List Char × ℕ) (hp : 1 ≤ p.2) :
    payload idf (vocabMap vocab) p = 0 ↔
      ∀ i, vocabMap vocab p.1 = some i → idf.getD i 0 = 0 := by
  unfold payload
  cases hv : vocabMap vocab p.1 with
  | none =>
      constructor
      · intro _ i hi
        cases hi
      · intro _
        rfl
  | some idx =>
      constructor
      · intro h i hi
        injection hi with hii
        rw [← hii]
        have h0 := mul_self_eq_zero.mp h
        have hc : ((p.2 : ℝ)) ≠ 0 := by
          have : (0 : ℝ) < (p.2 : ℝ) := by
            exact_mod_cast Nat.lt_of_lt_of_le Nat.zero_lt_one hp
          exact ne_of_gt this
        exact (mul_eq_zero.mp h0).resolve_left hc
      · intro h
        show ((p.2 : ℝ) * idf.getD idx 0) * ((p.2 : ℝ) * idf.getD idx 0) = 0
        rw [h idx rfl]
        ring

/-- Scaling every entry divides the sum of squares by the square of the
scale (also valid for scale 0, where both sides vanish). -/
theorem sumSq_map_div (v : List ℝ) (c : ℝ) :
    sumSq (v.map (fun x => x / c)) = sumSq v / (c * c) := by
  unfold sumSq
  rw [List.map_map]
  induction v with
  | nil => simp
  | cons a t ih =>
      simp only [List.map_cons, List.sum_cons, Function.comp] at *
      rw [ih, div_mul_div_comm, div_add_div_same]

/-- Norm characterization of `SimpleTFIDF.transform`: the returned
vector has Euclidean norm 0 or 1, and norm 0 holds exactly when no
normalized token of the text sits at a vocabulary index carrying a
nonzero IDF weight. -/
theorem transform_norm_spec (vocab : List (List Char)) (idf : List ℝ)
    (text : List Char) :
    (euclideanNorm (transform vocab idf text) = 0 ∨
      euclideanNorm (transform vocab idf text) = 1) ∧
    (euclideanNorm (transform vocab idf text) = 0 ↔
      ∀ t ∈ stemmingWords text, ∀ i, vocabMap vocab t = some i →
        idf.getD i 0 = 0) := by
  have hbridge := transform_tokens_eq text
  set counts := termCounts (splitWords (stemming text)) with hcounts
  set init : List ℝ := List.replicate vocab.length 0 with hinit
  have hfstsnd : tfidfLoop idf (vocabMap vocab) counts init 0 =
      ((tfidfLoop idf (vocabMap vocab) counts init 0).1,
       (tfidfLoop idf (vocabMap vocab) counts init 0).2) := rfl
  have hsumsq : (tfidfLoop idf (vocabMap vocab) counts init 0).2 =
      sumSq (tfidfLoop idf (vocabMap vocab) counts init 0).1 := by
    refine tfidfLoop_sumSq idf vocab counts init 0 ?_ ?_ ?_ ?_
    · exact List.length_replicate _ _
    · exact termCounts_nodup _
    · intro p _ i _
      exact getD_replicate_zero _ _
    · exact (sumSq_replicate_zero _).symm
  have hsnd : (tfidfLoop idf (vocabMap vocab) counts init 0).2 =
      (counts.map (payload idf (vocabMap vocab))).sum := by
    rw [tfidfLoop_snd, zero_add]
  have hzero_iff : (tfidfLoop idf (vocabMap vocab) counts init 0).2 = 0 ↔
      (∀ t ∈ stemmingWords text, ∀ i, vocabMap vocab t = some i →
        idf.getD i 0 = 0) := by
    rw [hsnd, payloadSum_eq_zero_iff]
    constructor
    · intro h t ht i hi
      rw [← hbridge] at ht
      rw [← termCounts_keys (splitWords (stemming text)) t, List.mem_map] at ht
      obtain ⟨p, hp, hpt⟩ := ht
      have hcnt := termCounts_pos _ p hp
      have := (payload_eq_zero_iff idf vocab p hcnt).mp (h p hp)
      rw [hpt] at this
      exact this i hi
    · intro h p hp
      refine (payload_eq_zero_iff idf vocab p (termCounts_pos _ p hp)).mpr ?_
      intro i hi
      have hkey : p.1 ∈ (counts.map Prod.fst) := List.mem_map_of_mem _ hp
      rw [hcounts, termCounts_keys, hbridge] at hkey
      exact h p.1 hkey i hi
  have hnn : 0 ≤ (tfidfLoop idf (vocabMap vocab) counts init 0).2 := by
    rw [hsumsq]
    exact sumSq_nonneg _
  have htr : transform vocab idf text =
      (if 0 < (tfidfLoop idf (vocabMap vocab) counts init 0).2 then
        (tfidfLoop idf (vocabMap vocab) counts init 0).1.map
          (fun x => x / Real.sqrt (tfidfLoop idf (vocabMap vocab) counts init 0).2)
       else (tfidfLoop idf (vocabMap vocab) counts init 0).1) := rfl
  by_cases hpos : 0 < (tfidfLoop idf (vocabMap vocab) counts init 0).2
  · have hone : euclideanNorm (transform vocab idf text) = 1 := by
      rw [htr, if_pos hpos]
      unfold euclideanNorm
      rw [sumSq_map_div, Real.mul_self_sqrt (le_of_lt hpos), ← hsumsq,
        div_self (ne_of_gt hpos), Real.sqrt_one]
    refine ⟨Or.inr hone, ?_⟩
    rw [hone]
    constructor
    · intro h
      exact absurd h one_ne_zero
    · intro h
      exact absurd (hzero_iff.mpr h) (ne_of_gt hpos)
  · have hz : (tfidfLoop idf (vocabMap vocab) counts init 0).2 = 0 :=
      le_antisymm (not_lt.mp hpos) hnn
    have hzero : euclideanNorm (transform vocab idf text) = 0 := by
      rw [htr, if_neg hpos]
      unfold euclideanNorm
      rw [← hsumsq, hz, Real.sqrt_zero]
    refine ⟨Or.inl hzero, ?_⟩
    rw [hzero]
    constructor
    · intro _
      exact hzero_iff.mp hz
    · intro _
      rfl

/-- C5 (amended): for a bundle with matching lengths, the transformed
vector has Euclidean norm 0 or 1 (exactly, in the real-number model),
and norm 0 holds precisely when no normalized token of the text occupies
a vocabulary index whose IDF weight is nonzero; equivalently, the raw
count·IDF vector is divided by its norm exactly when that norm is
strictly positive and left all-zero otherwise. -/
theorem c5_transform_norm (vocab : List (List Char)) (idf : List ℝ)
    (text : List Char) (hlen : idf.length = vocab.length) :
    (euclideanNorm (transform vocab idf text) = 0 ∨
      euclideanNorm (transform vocab idf text) = 1) ∧
    (euclideanNorm (transform vocab idf text) = 0 ↔
      ∀ t ∈ stemmingWords text, ∀ i, vocabMap vocab t = some i →
        idf.getD i 0 = 0) :=
  transform_norm_spec vocab idf text

/-- Witness for C5 at the one-word bundle `(["ab"], [2])` and text
`"ab"`. -/
theorem c5_transform_norm_witness :
    ([(2 : ℝ)].length = (["ab".toList]).length) ∧
      (euclideanNorm (transform ["ab".toList] [(2 : ℝ)] ("ab".toList)) = 0 ∨
        euclideanNorm (transform ["ab".toList] [(2 : ℝ)] ("ab".toList)) = 1) :=
  ⟨rfl, (c5_transform_norm ["ab".toList] [(2 : ℝ)] ("ab".toList) rfl).1⟩

/-- Counterexample to C5 as stated: with the length-matching bundle
`(["ab"], [0])` — a zero IDF weight — the text `"ab"` has a normalized
token inside the vocabulary, yet the transformed vector has Euclidean
norm 0, not 1. -/
theorem c5_counterexample :
    ("ab".toList ∈ stemmingWords ("ab".toList)) ∧
      ("ab".toList ∈ (["ab".toList] : List (List Char))) ∧
      ([(0 : ℝ)].length = (["ab".toList]).length) ∧
      euclideanNorm (transform ["ab".toList] [(0 : ℝ)] ("ab".toList)) = 0 ∧
      euclideanNorm (transform ["ab".toList] [(0 : ℝ)] ("ab".toList)) ≠ 1 := by
  have hsw : stemmingWords ("ab".toList) = ["ab".toList] := by
    rw [stemmingWords_eq_nr]
    decide
  have hz : euclideanNorm (transform ["ab".toList] [(0 : ℝ)] ("ab".toList)) = 0 := by
    refine (transform_norm_spec ["ab".toList] [(0 : ℝ)] ("ab".toList)).2.mpr ?_
    intro t ht i hi
    rw [hsw, List.mem_singleton] at ht
    subst ht
    have hvm : vocabMap ["ab".toList] ("ab".toList) = some 0 := rfl
    rw [hvm] at hi
    injection hi with hii
    rw [← hii]
    rfl
  refine ⟨by rw [hsw]; exact List.mem_singleton.mpr rfl, by decide, rfl, hz, ?_⟩
  rw [hz]
  norm_num
